import Mathlib

/- Verification of the share-table extraction and competitor-discovery core of
   src/main.py (shinkan).

   Modelling conventions:
   - Python strings are lists of characters (Str); Python floats arising from
     parsed decimal numerals are rationals.
   - Each Python regular expression is hand-compiled into an explicit matcher
     with Python's semantics: leftmost scan, first-alternative preference,
     greedy quantifiers with backtracking.
   - Python exceptions are modelled with Except; a try/except block is a match
     on the Except value.
   - External gateways (web search, page fetch+analysis, text completion) are
     oracle fields of an Env structure, keyed by the argument that determines
     the call; logging and sleeping are omitted. -/

namespace Shinkan

abbrev Str := List Char

def strOf (s : String) : Str := s.data

deriving instance DecidableEq for Except

/-! ### Character classes of the regex patterns in src/main.py.
    Char.isAlpha / Char.isDigit / Char.isAlphanum are ASCII, matching the
    explicit classes [a-zA-Z], [0-9], [a-zA-Z0-9] used by the patterns. -/

/-- class [-a-zA-Z0-9] -/
def isC2 (c : Char) : Bool := c == '-' || c.isAlphanum

/-- class [a-zA-Z0-9.-] -/
def isC3 (c : Char) : Bool := c.isAlphanum || c == '.' || c == '-'

/-- Python regex \s (ASCII part, which is all that the inputs contain). -/
def isWs (c : Char) : Bool :=
  c == ' ' || c == '\t' || c == '\n' || c == '\r' || c == '\x0b' || c == '\x0c'

/-- class [0-9.] (kept by re.sub(r'[^0-9.]', '', s)). -/
def isDigitDot (c : Char) : Bool := c.isDigit || c == '.'

/-! ### Small Python string helpers -/

/-- Python str.strip() (ASCII whitespace, which is all that the inputs contain). -/
def pyStrip (xs : Str) : Str :=
  ((xs.dropWhile isWs).reverse.dropWhile isWs).reverse

/-- re.sub(r'[^0-9.]', '', s): keep only digits and dots. -/
def keepDigitsDots (xs : Str) : Str := xs.filter isDigitDot

/-- Value of a list of ASCII digits read in base 10. -/
def natOfDigits (l : Str) : Nat := l.foldl (fun n c => n * 10 + (c.toNat - 48)) 0

/-- Python float() on the strings this program feeds it (digits and dots after
    re.sub, or regex-captured numerals): none models ValueError.  The decimal
    a.b is the rational (a·10^|b| + b) / 10^|b|, built with mkRat so that the
    kernel can evaluate it. -/
def pyFloat (xs : Str) : Option ℚ :=
  if xs.all isDigitDot then
    match xs.splitOn '.' with
    | [a] => if a.isEmpty then none else some (natOfDigits a)
    | [a, b] =>
        if a.isEmpty && b.isEmpty then none
        else some (mkRat (natOfDigits a * 10 ^ b.length + natOfDigits b) (10 ^ b.length))
    | _ => none
  else none

/-- Python "sub in s" on strings: pat occurs as a contiguous substring. -/
def strIn (pat s : Str) : Bool := s.tails.any (fun t => pat.isPrefixOf t)

/-- share text is censored when it contains "< 10" or "<10" (the code's check). -/
def containsLt10 (s : Str) : Bool :=
  strIn (strOf ("< 10")) s || strIn (strOf ("<10")) s

/-! ### The domain pattern
    r'([a-zA-Z0-9][-a-zA-Z0-9]*\.[a-zA-Z0-9.-]+\.[a-zA-Z]{2,}
      |[a-zA-Z0-9][-a-zA-Z0-9]*\.[a-zA-Z]{2,}|自分)'
    compiled alternative by alternative.  Each matcher takes the suffix of the
    text starting at the attempted position and returns the matched prefix. -/

/-- Backtracking of [a-zA-Z0-9.-]+\.[a-zA-Z]{2,} inside alternative 1: run3 is
    the maximal [a-zA-Z0-9.-] run; Python tries the split point k (characters
    consumed by the +) from largest to smallest, requiring a '.' at k followed
    by at least two letters.  Since '.' is in the class, only k < run3.length
    with run3[k] = '.' can succeed. -/
def alt1Pick (run3 : Str) : Option Nat :=
  (List.range run3.length).reverse.find? (fun k =>
    decide (1 ≤ k) && (run3.getD k ' ' == '.') &&
    decide (2 ≤ ((run3.drop (k+1)).takeWhile Char.isAlpha).length))

/-- Alternative 1: [a-zA-Z0-9][-a-zA-Z0-9]*\.[a-zA-Z0-9.-]+\.[a-zA-Z]{2,}.
    '-' and '.' are not in [-a-zA-Z0-9], so the first run and its closing dot
    are deterministic; the second segment backtracks via alt1Pick. -/
def matchAlt1 : Str → Option Str
  | [] => none
  | c :: cs =>
    if c.isAlphanum then
      let run1 := cs.takeWhile isC2
      match cs.drop run1.length with
      | '.' :: t =>
        let run3 := t.takeWhile isC3
        match alt1Pick run3 with
        | some k =>
            let letters := (run3.drop (k+1)).takeWhile Char.isAlpha
            some (c :: run1 ++ '.' :: run3.take k ++ '.' :: letters)
        | none => none
      | _ => none
    else none

/-- Alternative 2: [a-zA-Z0-9][-a-zA-Z0-9]*\.[a-zA-Z]{2,} (deterministic:
    '.' is not in [-a-zA-Z0-9] and nothing follows the greedy letter run). -/
def matchAlt2 : Str → Option Str
  | [] => none
  | c :: cs =>
    if c.isAlphanum then
      let run1 := cs.takeWhile isC2
      match cs.drop run1.length with
      | '.' :: t =>
        let letters := t.takeWhile Char.isAlpha
        if 2 ≤ letters.length then some (c :: run1 ++ '.' :: letters) else none
      | _ => none
    else none

/-- Alternative 3: the literal 自分 ("self" sentinel row). -/
def matchJibun : Str → Option Str
  | '自' :: '分' :: _ => some ['自', '分']
  | _ => none

/-- The whole domain pattern at one position: Python prefers the first
    alternative that matches. -/
def matchDomain (xs : Str) : Option Str :=
  (matchAlt1 xs).orElse (fun _ => (matchAlt2 xs).orElse fun _ => matchJibun xs)

/-- re.finditer(domain_pattern, line): leftmost non-overlapping matches, each
    paired with the rest of the line after the match end (line[m.end():]).
    Fuel is the length of the text; every match is nonempty so this is exact. -/
def domainScan : Nat → Str → List (Str × Str)
  | 0, _ => []
  | _ + 1, [] => []
  | fuel + 1, c :: cs =>
    match matchDomain (c :: cs) with
    | some m => (m, (c :: cs).drop m.length) :: domainScan fuel ((c :: cs).drop m.length)
    | none => domainScan fuel cs

def domainMatches (xs : Str) : List (Str × Str) := domainScan xs.length xs

/-! ### The percent pattern
    r'(\d+\.?\d*%|\d+\.?\d*\s*%|< 10 %|<\s*10\s*%)' -/

/-- Greedy \d+\.?\d*: returns the consumed numeral and the remaining suffix;
    none when there is no leading digit.  Deterministic because '%' (or \s)
    can never be produced by shrinking a digit run. -/
def matchNum (xs : Str) : Option (Str × Str) :=
  let a := xs.takeWhile Char.isDigit
  if a.isEmpty then none
  else
    match xs.drop a.length with
    | '.' :: t =>
        let b := t.takeWhile Char.isDigit
        some (a ++ '.' :: b, t.drop b.length)
    | r => some (a, r)

/-- Alternatives 3 and 4 of the percent pattern: "< 10 %" literal, then
    <\s*10\s*%. -/
def matchLtPercent (xs : Str) : Option Str :=
  match xs with
  | '<' :: ' ' :: '1' :: '0' :: ' ' :: '%' :: _ => some (strOf ("< 10 %"))
  | '<' :: t =>
      let w1 := t.takeWhile isWs
      match t.drop w1.length with
      | '1' :: '0' :: u =>
          let w2 := u.takeWhile isWs
          match u.drop w2.length with
          | '%' :: _ => some ('<' :: w1 ++ '1' :: '0' :: w2 ++ ['%'])
          | _ => none
      | _ => none
  | _ => none

/-- The whole percent pattern at one position (alternatives in order). -/
def matchPercent (xs : Str) : Option Str :=
  match matchNum xs with
  | some (num, r) =>
    match r with
    | '%' :: _ => some (num ++ ['%'])
    | _ =>
        let w := r.takeWhile isWs
        match r.drop w.length with
        | '%' :: _ => some (num ++ w ++ ['%'])
        | _ => matchLtPercent xs
  | none => matchLtPercent xs

/-- re.finditer(percent_pattern, s): matched texts in order. -/
def percentScan : Nat → Str → List Str
  | 0, _ => []
  | _ + 1, [] => []
  | fuel + 1, c :: cs =>
    match matchPercent (c :: cs) with
    | some m => m :: percentScan fuel ((c :: cs).drop m.length)
    | none => percentScan fuel cs

def percentMatches (xs : Str) : List Str := percentScan xs.length xs

/-! ### extract_domains_and_shares (src/main.py lines 3804-3935) -/

/-- One (domain, share_value, raw share text) record of the extractor. -/
structure ShareRec where
  domain : Str
  value : ℚ
  raw : Str
deriving DecidableEq, Repr

/-- Stage 1 inner loop: scan the percent matches found after one domain match;
    the first usable one is appended (if the domain is new) and the loop breaks;
    censored or unparseable matches are skipped. -/
def stage1Percents (pairs : List ShareRec) (domain : Str) : List Str → List ShareRec
  | [] => pairs
  | m :: rest =>
    let share := pyStrip m
    if containsLt10 share then stage1Percents pairs domain rest
    else
      let sv := keepDigitsDots share
      if sv.isEmpty then stage1Percents pairs domain rest
      else
        match pyFloat sv with
        | some v =>
            if pairs.any (fun r => r.domain == domain) then stage1Percents pairs domain rest
            else pairs ++ [⟨domain, v, share⟩]
        | none => stage1Percents pairs domain rest

/-- Stage 1, one line: for each domain match, search the rest of the line. -/
def stage1Line (pairs : List ShareRec) (line : Str) : List ShareRec :=
  (domainMatches line).foldl (fun acc dm => stage1Percents acc dm.1 (percentMatches dm.2)) pairs

/-- Stage 1 (line-scoped pairing) over text.split('\n'). -/
def stage1 (text : Str) : List ShareRec :=
  (text.splitOn '\n').foldl stage1Line []

/-- re.split(r'\s+', text): split on maximal whitespace runs, keeping an empty
    token at either end when the text starts or ends with whitespace. -/
def wsSplitAux : Nat → Str → List Str
  | 0, _ => [[]]
  | fuel + 1, xs =>
    let tok := xs.takeWhile (fun c => !isWs c)
    let rest := xs.drop tok.length
    if rest.isEmpty then [tok]
    else tok :: wsSplitAux fuel (rest.dropWhile isWs)

def wsSplit (xs : Str) : List Str := wsSplitAux xs.length xs

/-- Stage 2 (token-scoped pairing): re.match anchors both patterns at the start
    of a word and of its successor. -/
def stage2 (text : Str) : List ShareRec :=
  let words := wsSplit text
  (words.zip (words.drop 1)).foldl
    (fun pairs ww =>
      match matchDomain ww.1 with
      | some domain =>
        match matchPercent ww.2 with
        | some m =>
          let share := pyStrip m
          if containsLt10 share then pairs
          else
            let sv := keepDigitsDots share
            if sv.isEmpty then pairs
            else
              match pyFloat sv with
              | some v =>
                  if pairs.any (fun r => r.domain == domain) then pairs
                  else pairs ++ [⟨domain, v, share⟩]
              | none => pairs
        | none => pairs
      | none => pairs)
    []

/-- Stage 3 is f'({domain_pattern})[^0-9]*?(\d+\.?\d*)[\s%]*'.  A position
    matches when some backtracking variant of the domain pattern there is
    followed by a digit with no digit in between (the lazy [^0-9]*? gap can
    always stop at the first digit).  The possible ends of domain variants at
    one position: every viable alt1 split point (largest first), the alt2
    match, the literal 自分.  Shrinking a letter run only frees letters, which
    cannot expose a digit, so letter-run backtracking is irrelevant here. -/
def domainVariantRests (xs : Str) : List Str :=
  let alt1 :=
    match xs with
    | [] => []
    | c :: cs =>
      if c.isAlphanum then
        let run1 := cs.takeWhile isC2
        match cs.drop run1.length with
        | '.' :: t =>
          let run3 := t.takeWhile isC3
          ((List.range run3.length).reverse.filter (fun k =>
              decide (1 ≤ k) && (run3.getD k ' ' == '.') &&
              decide (2 ≤ ((run3.drop (k+1)).takeWhile Char.isAlpha).length))).map
            (fun k =>
              let letters := (run3.drop (k+1)).takeWhile Char.isAlpha
              t.drop (k + 1 + letters.length))
        | _ => []
      else []
  let alt2 := match matchAlt2 xs with
              | some m => [xs.drop m.length]
              | none => []
  let alt3 := match matchJibun xs with
              | some m => [xs.drop m.length]
              | none => []
  alt1 ++ alt2 ++ alt3

/-- Does the stage-3 combined pattern match anywhere in the text? -/
def stage3HasMatch (text : Str) : Bool :=
  text.tails.any (fun suf => (domainVariantRests suf).any (fun r => r.any Char.isDigit))

/-- The stage-4 percent pattern was written as r'(\\d+\\.?\\d*)\\s*%' — a raw
    string, so each \\ is a literal backslash: the regex is
    \ d+ \ .? \ d* \ s* % .  Captured group: \ d+ \ .? \ d* . -/
def brokenTryTail (v : Str) : Option (Str × Nat) :=
  match v with
  | '\\' :: w =>
    let cds := w.takeWhile (fun c => c == 'd')
    match w.drop cds.length with
    | '\\' :: z =>
      let ss := z.takeWhile (fun c => c == 's')
      match z.drop ss.length with
      | '%' :: _ => some (cds, 1 + cds.length + 1 + ss.length + 1)
      | _ => none
    | _ => none
  | _ => none

/-- One position of the stage-4 pattern; returns (captured group, total match
    length).  The optional any-char .? is greedy: one character first. -/
def matchBroken (xs : Str) : Option (Str × Nat) :=
  match xs with
  | '\\' :: t =>
    let a := t.takeWhile (fun c => c == 'd')
    if a.isEmpty then none
    else
      match t.drop a.length with
      | '\\' :: u =>
        let withChar :=
          match u with
          | c :: u2 =>
            if c == '\n' then none
            else (brokenTryTail u2).map (fun (g : Str × Nat) =>
              ('\\' :: a ++ '\\' :: c :: '\\' :: g.1, 1 + a.length + 1 + 1 + g.2))
          | [] => none
        match withChar with
        | some r => some r
        | none => (brokenTryTail u).map (fun (g : Str × Nat) =>
            ('\\' :: a ++ '\\' :: '\\' :: g.1, 1 + a.length + 1 + g.2))
      | _ => none
  | _ => none

/-- re.findall of the stage-4 pattern: captured groups in order.  (The total
    match length returned by matchBroken is a lower bound of 1 is enough for
    the scan; groups always begin with a backslash, so they can never parse as
    floats — stage 4 can therefore never contribute a pair.) -/
def brokenScan : Nat → Str → List Str
  | 0, _ => []
  | _ + 1, [] => []
  | fuel + 1, c :: cs =>
    match matchBroken (c :: cs) with
    | some (g, n) => g :: brokenScan fuel ((c :: cs).drop (max n 1))
    | none => brokenScan fuel cs

def brokenFindall (text : Str) : List Str := brokenScan text.length text

/-- Lexicographic order on (value, raw text) used by Python's
    valid_percents.sort(reverse=True) on (float, str) tuples. -/
def strLtChar (a b : Str) : Bool :=
  match a, b with
  | [], [] => false
  | [], _ :: _ => true
  | _ :: _, [] => false
  | x :: xs, y :: ys => x < y || (x == y && strLtChar xs ys)

def tupLt (a b : ℚ × Str) : Bool :=
  a.1 < b.1 || (a.1 == b.1 && strLtChar a.2 b.2)

/-- Stable descending insertion by an arbitrary strict order: an element is
    placed before the first element not strictly above it, which matches
    Python's stable sort with reverse=True (via foldr). -/
def insertDescBy (lt : α → α → Bool) (x : α) : List α → List α
  | [] => [x]
  | y :: ys => if lt x y then y :: insertDescBy lt x ys else x :: y :: ys

def sortDescBy (lt : α → α → Bool) (l : List α) : List α :=
  l.foldr (insertDescBy lt) []

/-- Stage 4 (positional pairing). -/
def stage4 (text : Str) : List ShareRec :=
  let allDomains := (domainMatches text).map Prod.fst
  let validPercents := (brokenFindall text).filterMap (fun p =>
    match pyFloat p with
    | some v => if 10 ≤ v then some (v, p ++ ['%']) else none
    | none => none)
  if 0 < allDomains.length ∧ 0 < validPercents.length ∧
     ((allDomains.length : ℤ) - validPercents.length).natAbs < 5 then
    let sorted := sortDescBy tupLt validPercents
    ((allDomains.zip sorted).take 7).map (fun dv => ⟨dv.1, dv.2.1, dv.2.2⟩)
  else []

/-- The keep-condition of the final defensive re-check. -/
def postFilterKeep (r : ShareRec) : Bool := 10 ≤ r.value && !containsLt10 r.raw

/-- The final filter-sort-cap of extract_domains_and_shares. -/
def postFilter (pairs : List ShareRec) : List ShareRec :=
  (sortDescBy (fun a b => a.value < b.value) (pairs.filter postFilterKeep)).take 7

/-- The stage cascade of extract_domains_and_shares, before the final
    filter-sort-cap: if stages 1-2 produce nothing and the stage-3 pattern
    matches, the loop `for domain, share_value in combined_matches` unpacks a
    3-tuple (the domain pattern's own group nests inside the added group) into
    2 names and raises ValueError. -/
def cascadePairs (text : Str) : Except Unit (List ShareRec) :=
  let p1 := stage1 text
  let p2 := if p1.isEmpty then stage2 text else p1
  if p2.isEmpty && stage3HasMatch text then Except.error ()
  else Except.ok (if p2.isEmpty then stage4 text else p2)

/-- Body of extract_domains_and_shares inside its try. -/
def extractBody (text : Str) : Except Unit (List ShareRec) :=
  match cascadePairs text with
  | Except.ok pairs => Except.ok (postFilter pairs)
  | Except.error e => Except.error e

/-- extract_domains_and_shares: the whole body is wrapped in
    try/except-return-[]. -/
def extract_domains_and_shares (text : Str) : List ShareRec :=
  match extractBody text with
  | Except.ok r => r
  | Except.error _ => []

/-- analyze_csv_data's rendering of one record: f"{domain}: {share}". -/
def renderRec (r : ShareRec) : Str := r.domain ++ ':' :: ' ' :: r.raw

/-- The canonical output-as-text: one "domain: NN%" line per record. -/
def renderLines (rs : List ShareRec) : Str :=
  List.intercalate ['\n'] (rs.map renderRec)

/-- A clean rendered share numeral: digits, or digits '.' digits (the share
    texts of canonical records, before their '%' sign). -/
def cleanNumeral (s : Str) : Prop :=
  (s ≠ [] ∧ ∀ c ∈ s, c.isDigit = true) ∨
  (∃ a b, s = a ++ '.' :: b ∧ a ≠ [] ∧ (∀ c ∈ a, c.isDigit = true) ∧
    (∀ c ∈ b, c.isDigit = true))

/-! ### parse_impression_share_data (src/main.py lines 2580-2623) -/

/-- Python str.replace(pat, ""): remove all non-overlapping occurrences,
    left to right (pat nonempty here). -/
def removeAllAux (pat : Str) : Nat → Str → Str
  | 0, xs => xs
  | fuel + 1, xs =>
    match xs with
    | [] => []
    | c :: cs =>
      if pat.isPrefixOf (c :: cs) then removeAllAux pat fuel ((c :: cs).drop pat.length)
      else c :: removeAllAux pat fuel cs

def removeAll (pat xs : Str) : Str := removeAllAux pat xs.length xs

/-- One parsed row: the cell dict plus the added impression_share_value. -/
structure ImpRow where
  cells : List (Str × Str)
  shareValue : ℚ
deriving DecidableEq, Repr

/-- dict(zip(headers, values)).get(k): on duplicate headers the later value
    wins. -/
def dictGet (cells : List (Str × Str)) (k : Str) : Option Str :=
  (cells.reverse.find? (fun p => p.1 == k)).map Prod.snd

def impShareKey : Str := strOf ("インプレッション シェア")
def dispUrlKey : Str := strOf ("表示 URL ドメイン")

/-- The numeric conversion of one インプレッション シェア cell: a "< ..."
    value is halved ("treat it as half the bound", per the code's comment),
    anything else is parsed directly; none models ValueError. -/
def impShareValue (share : Str) : Option ℚ :=
  if (strOf ("< ")).isPrefixOf share then
    (pyFloat (removeAll (strOf (" %")) (removeAll (strOf ("< ")) share))).map
      (fun v => mkRat v.num (2 * v.den))
  else
    pyFloat (removeAll (strOf (" %")) share)

/-- The row loop of parse_impression_share_data; state is (own_data, data). -/
def impRowsAux (headers : List Str) :
    Option ImpRow × List ImpRow → List Str → Except Unit (Option ImpRow × List ImpRow)
  | st, [] => Except.ok st
  | st, line :: rest =>
    if (pyStrip line).isEmpty then impRowsAux headers st rest
    else
      let values := (line.splitOn '\t').map pyStrip
      let cells := headers.zip values
      let share := (dictGet cells impShareKey).getD (strOf ("0"))
      match impShareValue share with
      | none => Except.error ()
      | some v =>
        let row : ImpRow := ⟨cells, v⟩
        if strIn (strOf ("自分")) ((dictGet cells dispUrlKey).getD []) then
          impRowsAux headers (some row, st.2) rest
        else
          impRowsAux headers (st.1, st.2 ++ [row]) rest

/-- parse_impression_share_data: returns (own_data, competitors sorted
    descending by impression_share_value); none is the except-return-None. -/
def parse_impression_share_data (text : Str) : Option (Option ImpRow × List ImpRow) :=
  let lines := (pyStrip text).splitOn '\n'
  let headers := ((lines.headD []).splitOn '\t').map pyStrip
  match impRowsAux headers (none, []) (lines.drop 1) with
  | Except.error _ => none
  | Except.ok (own, data) =>
      some (own, sortDescBy (fun a b => a.shareValue < b.shareValue) data)

/-! ### Competitor discovery
    (find_similar_landing_pages_with_ai_filtering, lines 4032-4286;
     find_similar_landing_pages_original, lines 4289-4503;
     find_similar_landing_pages, lines 4506-4522)

    External collaborators are an Env of oracles.  The analyzeCalls field of
    the loop state is proof instrumentation recording each
    analyze_landing_page invocation; it changes no behaviour. -/

/-- One search result; url models result.get("url") (absent key → none). -/
structure SearchResult where
  url : Option Str
deriving DecidableEq, Repr

/-- One entry of impression_data['competitors'] as the discovery code reads
    it: comp.get('表示 URL ドメイン'), comp.get('インプレッション シェア'),
    comp.get('impression_share_value', 0). -/
structure CompRow where
  displayDomain : Option Str
  share : Option Str
  shareValue : ℚ
deriving DecidableEq, Repr

/-- The payload of a successful analyze_landing_page call (title/analysis
    text; the returned dict's url is the analyzed url). -/
structure LpPayload where
  title : Str
  analysis : Str
deriving DecidableEq, Repr

/-- One collected competitor record. -/
structure LpRec where
  url : Str
  payload : LpPayload
  serviceName : Option Str
  impressionShare : Option (Str × ℚ)
  searchKeyword : Str
  source : Str
deriving DecidableEq, Repr

/-- The gateways, as oracles keyed by the argument that determines each call.
    Errors model raised exceptions. -/
structure Env where
  search : Str → Except Unit (List SearchResult)
  genKeywords : Except Unit (List Str)
  aiServiceNames : Except Unit Str
  aiPickUrl : Str → Except Unit Str
  analyze : Str → Except Unit LpPayload
  reviews : Str → Except Unit (List Str)

/-- The discovery call's own arguments.  analysisHasKey models
    `original_analysis and "analysis" in original_analysis`;
    impressionData none models a falsy dict or one without 'competitors'. -/
structure Args where
  originalUrl : Str
  analysisHasKey : Bool
  impressionData : Option (List CompRow)
  additionalKeywords : List Str

/-- urlparse(u).netloc: strip an alpha-led scheme before ':', then the netloc
    is what follows '//' up to the next '/', '?' or '#' (empty otherwise). -/
def isSchemeChar (c : Char) : Bool := c.isAlphanum || c == '+' || c == '-' || c == '.'

def stripScheme (u : Str) : Str :=
  let pre := u.takeWhile (fun c => c != ':')
  match u.drop pre.length with
  | ':' :: rest =>
      if !pre.isEmpty && (pre.headD ' ').isAlpha && pre.all isSchemeChar then rest else u
  | _ => u

def netloc (u : Str) : Str :=
  match stripScheme u with
  | '/' :: '/' :: r => r.takeWhile (fun c => c != '/' && c != '?' && c != '#')
  | _ => []

/-- str.replace("www.", ""): every occurrence, not only a leading one. -/
def stripWww (s : Str) : Str := removeAll (strOf ("www.")) s

/-- The back-fill of a record's share from impression_data['competitors']:
    first row whose www-stripped 表示 URL ドメイン matches the candidate's
    domain key by bidirectional substring; the stored pair is
    (comp.get('インプレッション シェア', 'N/A'), comp.get('impression_share_value', 0)). -/
def backfillShare (impressionData : Option (List CompRow)) (domainKey : Str) :
    Option (Str × ℚ) :=
  match impressionData with
  | none => none
  | some comps =>
    (comps.find? (fun comp =>
        let cd := stripWww (comp.displayDomain.getD [])
        strIn cd domainKey || strIn domainKey cd)).map
      (fun comp => (comp.share.getD (strOf ("N/A")), comp.shareValue))

/-- Loop state: collected records paired with the dedup key under which each
    was admitted, the existing_domains list, and the instrumentation trace of
    analyze_landing_page calls. -/
structure DiscState where
  lpsK : List (LpRec × Str)
  existing : List Str
  analyzeCalls : List (Str × Str)
deriving DecidableEq, Repr

def DiscState.lps (st : DiscState) : List LpRec := st.lpsK.map Prod.fst

/-- Keyword generation shared by both strategies (lines 4071-4084 and
    4313-4327): on success the generated list (possibly empty), on a raised
    error the seed's www-stripped netloc, nothing when original_analysis is
    falsy or lacks 'analysis'. -/
def genKeywordTerms (env : Env) (args : Args) : List Str :=
  if args.analysisHasKey then
    match env.genKeywords with
    | Except.ok ks => ks
    | Except.error _ => [stripWww (netloc args.originalUrl)]
  else []

/-- imp_domains (lines 4052-4059): display domains that are truthy, new, and
    not the 自分 sentinel, in order. -/
def impDomains : Option (List CompRow) → List Str
  | none => []
  | some comps =>
    comps.foldl (fun acc comp =>
      match comp.displayDomain with
      | some d =>
          if d.isEmpty || acc.contains d || d == strOf ("自分") then acc else acc ++ [d]
      | none => acc) []

/-- list(dict.fromkeys(l)): dedup keeping first occurrences. -/
def dedupFirst (l : List Str) : List Str :=
  l.foldl (fun acc t => if acc.contains t then acc else acc ++ [t]) []

/-- Step 2 of the AI strategy (lines 4091-4104): one search per term, errors
    skipped, empty result lists not collected, results capped at 10. -/
def collectBatches (env : Env) (terms : List Str) : List (Str × List SearchResult) :=
  terms.foldl (fun acc t =>
    match env.search t with
    | Except.error _ => acc
    | Except.ok [] => acc
    | Except.ok rs => acc ++ [(t, rs.take 10)]) []

/-- re.search(r'\[.*?\]', s, re.DOTALL): from the first '[' to the first ']'
    after it; none when no such pair exists. -/
def bracketSlice (s : Str) : Option Str :=
  match s.dropWhile (fun c => c != '[') with
  | '[' :: t =>
      let mid := t.takeWhile (fun c => c != ']')
      match t.drop mid.length with
      | ']' :: _ => some ('[' :: mid ++ [']'])
      | _ => none
  | _ => none

/-- JSON whitespace of the json module (space, tab, newline, carriage
    return only). -/
def jsonWs (s : Str) : Str :=
  s.dropWhile (fun c => c == ' ' || c == '\t' || c == '\n' || c == '\r')

/-- A decoded JSON value: strings carry their decoded content, numbers their
    source text (their numeric value is never inspected by this program). -/
inductive Jv where
  | jstr (s : Str)
  | jnum (s : Str)
  | jtru
  | jfls
  | jnul
  | jnan
  | jinf
  | jninf
  | jarr (vs : List Jv)
  | jobj (ps : List (Str × Jv))

def jsonHex (c : Char) : Option Nat :=
  if c.isDigit then some (c.toNat - 48)
  else if 'a' ≤ c ∧ c ≤ 'f' then some (c.toNat - 87)
  else if 'A' ≤ c ∧ c ≤ 'F' then some (c.toNat - 55)
  else none

/-- Exactly four hex digits of a \uXXXX escape. -/
def jsonU4 : Str → Option (Nat × Str)
  | a :: b :: c :: d :: r =>
    match jsonHex a, jsonHex b, jsonHex c, jsonHex d with
    | some x1, some x2, some x3, some x4 => some (((x1 * 16 + x2) * 16 + x3) * 16 + x4, r)
    | _, _, _, _ => none
  | _ => none

/-- The json escape table: quote, backslash, slash, b f n r t; anything else raises. -/
def jsonEsc (c : Char) : Option Char :=
  if c = '"' then some '"'
  else if c = '\\' then some '\\'
  else if c = '/' then some '/'
  else if c = 'b' then some (Char.ofNat 8)
  else if c = 'f' then some (Char.ofNat 12)
  else if c = 'n' then some '\n'
  else if c = 'r' then some (Char.ofNat 13)
  else if c = 't' then some '\t'
  else none

/-- The json scanner's string body, after the opening quote, strict mode:
    unescaped control characters below 0x20 and invalid escapes raise; \uXXXX
    needs exactly four hex digits; a high surrogate followed by \u with four
    valid hex digits pairs with a low surrogate and otherwise keeps the lone
    high surrogate and re-reads the escape (invalid hex right after such a \u
    raises).  A lone surrogate survives in the Python str; Lean's Char cannot
    carry it, so the decoded content uses U+FFFD there — only the decoded
    CONTENT is approximated, never whether decoding succeeds, and the content
    only ever parameterizes external-gateway oracles. -/
def jsonStr : Nat → Str → Option (Str × Str)
  | 0, _ => none
  | fuel + 1, s =>
    match s with
    | [] => none
    | '"' :: r => some ([], r)
    | '\\' :: 'u' :: r =>
      (jsonU4 r).bind (fun vu =>
        if 0xD800 ≤ vu.1 ∧ vu.1 ≤ 0xDBFF then
          match vu.2 with
          | '\\' :: 'u' :: r3 =>
            (jsonU4 r3).bind (fun wu =>
              if 0xDC00 ≤ wu.1 ∧ wu.1 ≤ 0xDFFF then
                (jsonStr fuel wu.2).map (fun p =>
                  (Char.ofNat (0x10000 + (vu.1 - 0xD800) * 0x400 + (wu.1 - 0xDC00)) :: p.1,
                   p.2))
              else
                (jsonStr fuel vu.2).map (fun p => ('�' :: p.1, p.2)))
          | _ => (jsonStr fuel vu.2).map (fun p => ('�' :: p.1, p.2))
        else if 0xDC00 ≤ vu.1 ∧ vu.1 ≤ 0xDFFF then
          (jsonStr fuel vu.2).map (fun p => ('�' :: p.1, p.2))
        else
          (jsonStr fuel vu.2).map (fun p => (Char.ofNat vu.1 :: p.1, p.2)))
    | '\\' :: e :: r =>
      (jsonEsc e).bind (fun c => (jsonStr fuel r).map (fun p => (c :: p.1, p.2)))
    | c :: r =>
      if c.toNat < 32 then none
      else (jsonStr fuel r).map (fun p => (c :: p.1, p.2))

/-- Optional fraction and exponent of a JSON number: (\.\d+)?([eE][-+]?\d+)? —
    a lone '.' or a digitless exponent is simply not part of the number. -/
def jsonFracExp (r : Str) : Str × Str :=
  let fr : Str × Str :=
    match r with
    | '.' :: t =>
      let ds := t.takeWhile Char.isDigit
      if ds.isEmpty then ([], r) else ('.' :: ds, t.drop ds.length)
    | _ => ([], r)
  let ex : Str × Str :=
    match fr.2 with
    | 'e' :: t =>
      let sg : Str × Str := match t with
        | '+' :: u => (['+'], u)
        | '-' :: u => (['-'], u)
        | _ => ([], t)
      let ds := sg.2.takeWhile Char.isDigit
      if ds.isEmpty then ([], fr.2) else ('e' :: sg.1 ++ ds, sg.2.drop ds.length)
    | 'E' :: t =>
      let sg : Str × Str := match t with
        | '+' :: u => (['+'], u)
        | '-' :: u => (['-'], u)
        | _ => ([], t)
      let ds := sg.2.takeWhile Char.isDigit
      if ds.isEmpty then ([], fr.2) else ('E' :: sg.1 ++ ds, sg.2.drop ds.length)
    | _ => ([], fr.2)
  (fr.1 ++ ex.1, ex.2)

/-- The json number token, per (-?(?:0|[1-9]\d*))(\.\d+)?([eE][-+]?\d+)? — an
    integer part starting with 0 is just the single 0. -/
def jsonNum (s : Str) : Option (Str × Str) :=
  let sgn : Str × Str :=
    match s with
    | '-' :: r => (['-'], r)
    | _ => ([], s)
  match sgn.2 with
  | '0' :: r =>
    let fe := jsonFracExp r
    some (sgn.1 ++ '0' :: fe.1, fe.2)
  | c :: r =>
    if c.isDigit then
      let ds := r.takeWhile Char.isDigit
      let fe := jsonFracExp (r.drop ds.length)
      some (sgn.1 ++ c :: ds ++ fe.1, fe.2)
    else none
  | [] => none

/-- The recursive-descent modes of the json scanner: one value, an array body
    after '[', the rest of an array after a value, an object body after '{',
    the rest of an object after a member. -/
inductive JMode where
  | val
  | arrBody
  | arrRest
  | objBody
  | objRest

/-- The json scanner: scan_once dispatch on the first character (string,
    object, array, null, true, false, NaN, Infinity, minus Infinity, number), arrays
    and objects with whitespace allowed around every token, string-only object
    keys, ':' and ',' delimiters.  Fuel: every recursive call either first
    consumed an input character or is the one value dispatch right after a
    consumed '[', '{', ',' or ':', so at least one character is consumed per
    two fuel units and 2·|input|+8 fuel never runs out before the input. -/
def jsonP : Nat → JMode → Str → Option (Jv × Str)
  | 0, _, _ => none
  | fuel + 1, JMode.val, s =>
    match s with
    | '"' :: r => (jsonStr fuel r).map (fun p => (Jv.jstr p.1, p.2))
    | '{' :: r => jsonP fuel JMode.objBody r
    | '[' :: r => jsonP fuel JMode.arrBody r
    | 'n' :: 'u' :: 'l' :: 'l' :: r => some (Jv.jnul, r)
    | 't' :: 'r' :: 'u' :: 'e' :: r => some (Jv.jtru, r)
    | 'f' :: 'a' :: 'l' :: 's' :: 'e' :: r => some (Jv.jfls, r)
    | 'N' :: 'a' :: 'N' :: r => some (Jv.jnan, r)
    | 'I' :: 'n' :: 'f' :: 'i' :: 'n' :: 'i' :: 't' :: 'y' :: r => some (Jv.jinf, r)
    | '-' :: 'I' :: 'n' :: 'f' :: 'i' :: 'n' :: 'i' :: 't' :: 'y' :: r =>
      some (Jv.jninf, r)
    | _ => (jsonNum s).map (fun p => (Jv.jnum p.1, p.2))
  | fuel + 1, JMode.arrBody, s =>
    match jsonWs s with
    | ']' :: r => some (Jv.jarr [], r)
    | s1 =>
      (jsonP fuel JMode.val s1).bind (fun p =>
        (jsonP fuel JMode.arrRest p.2).bind (fun q =>
          match q.1 with
          | Jv.jarr vs => some (Jv.jarr (p.1 :: vs), q.2)
          | _ => none))
  | fuel + 1, JMode.arrRest, s =>
    match jsonWs s with
    | ']' :: r => some (Jv.jarr [], r)
    | ',' :: r =>
      (jsonP fuel JMode.val (jsonWs r)).bind (fun p =>
        (jsonP fuel JMode.arrRest p.2).bind (fun q =>
          match q.1 with
          | Jv.jarr vs => some (Jv.jarr (p.1 :: vs), q.2)
          | _ => none))
    | _ => none
  | fuel + 1, JMode.objBody, s =>
    match jsonWs s with
    | '}' :: r => some (Jv.jobj [], r)
    | '"' :: r =>
      (jsonStr fuel r).bind (fun kp =>
        match jsonWs kp.2 with
        | ':' :: r2 =>
          (jsonP fuel JMode.val (jsonWs r2)).bind (fun p =>
            (jsonP fuel JMode.objRest p.2).bind (fun q =>
              match q.1 with
              | Jv.jobj ps => some (Jv.jobj ((kp.1, p.1) :: ps), q.2)
              | _ => none))
        | _ => none)
    | _ => none
  | fuel + 1, JMode.objRest, s =>
    match jsonWs s with
    | '}' :: r => some (Jv.jobj [], r)
    | ',' :: r =>
      (match jsonWs r with
       | '"' :: r2 =>
         (jsonStr fuel r2).bind (fun kp =>
           match jsonWs kp.2 with
           | ':' :: r3 =>
             (jsonP fuel JMode.val (jsonWs r3)).bind (fun p =>
               (jsonP fuel JMode.objRest p.2).bind (fun q =>
                 match q.1 with
                 | Jv.jobj ps => some (Jv.jobj ((kp.1, p.1) :: ps), q.2)
                 | _ => none))
           | _ => none)
       | _ => none)
    | _ => none

/-- json.loads: skip leading whitespace, decode one value, skip trailing
    whitespace, require the whole input consumed ("Extra data" otherwise);
    none models a raised JSONDecodeError. -/
def pyJsonLoads (s : Str) : Option Jv :=
  match jsonP (2 * s.length + 8) JMode.val (jsonWs s) with
  | some vr => if (jsonWs vr.2).isEmpty then some vr.1 else none
  | none => none

/-- The textual stand-in for the Python object str()-rendered into prompts and
    stored in the record's service-name fields: a string its decoded content,
    a number its source text, the constants their Python renderings, containers
    abbreviated.  These names only ever parameterize the search/completion
    gateway oracles; no theorem depends on their exact text (and a bracket
    slice's elements can never be arrays — it holds a single ']'). -/
def Jv.asName : Jv → Str
  | Jv.jstr s => s
  | Jv.jnum s => s
  | Jv.jtru => strOf ("True")
  | Jv.jfls => strOf ("False")
  | Jv.jnul => strOf ("None")
  | Jv.jnan => strOf ("nan")
  | Jv.jinf => strOf ("inf")
  | Jv.jninf => strOf ("-inf")
  | Jv.jarr _ => strOf ("[...]")
  | Jv.jobj _ => strOf ("{...}")

/-- service_names = json.loads(slice) followed by `for service_name in
    service_names`: some names exactly when json.loads succeeds with a list.
    A decode error raises into the fallback except (main.py 4147-4151); a
    successful non-list value would raise TypeError in the for statement,
    caught by the outer handler into the same fallback — and is in any case
    unreachable, since a bracket slice always decodes to a list
    (pyJsonLoads_bracket_shape). -/
def aiParsedNames (js : Str) : Option (List Str) :=
  match pyJsonLoads js with
  | some (Jv.jarr vs) => some (vs.map Jv.asName)
  | _ => none

def startsHttp (s : Str) : Bool :=
  (strOf ("http://")).isPrefixOf s || (strOf ("https://")).isPrefixOf s

/-! #### The deterministic strategy: find_similar_landing_pages_original -/

/-- Inner scan of the table (CSV) loop over one identifier's search results
    (lines 4345-4398): take the first result whose www-stripped netloc
    matches the identifier by bidirectional substring and is neither the
    www-stripped seed netloc nor already collected; an analyze failure keeps
    the key in existing_domains and moves to the next result. -/
def csvScanResults (env : Env) (args : Args) (ident : Str) :
    DiscState → List SearchResult → DiscState
  | st, [] => st
  | st, r :: rs =>
    let u := (r.url).getD []
    if u.isEmpty then csvScanResults env args ident st rs
    else
      let resultDomain := stripWww (netloc u)
      if strIn ident resultDomain || strIn resultDomain ident then
        if resultDomain == stripWww (netloc args.originalUrl) then
          csvScanResults env args ident st rs
        else if st.existing.contains resultDomain then
          csvScanResults env args ident st rs
        else
          let st1 : DiscState := ⟨st.lpsK, st.existing ++ [resultDomain],
                                  st.analyzeCalls ++ [(u, resultDomain)]⟩
          match env.analyze u with
          | Except.ok payload =>
            let rec1 : LpRec :=
              ⟨u, payload, none, backfillShare args.impressionData resultDomain,
               ident, strOf ("CSV")⟩
            ⟨st1.lpsK ++ [(rec1, resultDomain)], st1.existing, st1.analyzeCalls⟩
          | Except.error _ => csvScanResults env args ident st1 rs
      else csvScanResults env args ident st rs

/-- The table loop (lines 4330-4405): one search per identifier, stopping at
    7 records; search errors and empty results are skipped. -/
def csvLoop (env : Env) (args : Args) : DiscState → List Str → DiscState
  | st, [] => st
  | st, d :: ds =>
    if 7 ≤ st.lpsK.length then st
    else
      match env.search d with
      | Except.error _ => csvLoop env args st ds
      | Except.ok [] => csvLoop env args st ds
      | Except.ok rs => csvLoop env args (csvScanResults env args d st rs) ds

/-- Inner scan of the keyword loop over the first 5 results (lines
    4426-4475): note that here the dedup key is the raw netloc — the source
    does not strip "www." in this loop — and the seed comparison is against
    the raw seed netloc. -/
def kwScanResults (env : Env) (args : Args) (keyword : Str) :
    DiscState → List SearchResult → DiscState
  | st, [] => st
  | st, r :: rs =>
    if 7 ≤ st.lpsK.length then st
    else
      let u := (r.url).getD []
      if u.isEmpty then kwScanResults env args keyword st rs
      else
        let domain := netloc u
        if domain == netloc args.originalUrl then
          kwScanResults env args keyword st rs
        else if st.existing.contains domain then
          kwScanResults env args keyword st rs
        else
          let st1 : DiscState := ⟨st.lpsK, st.existing ++ [domain],
                                  st.analyzeCalls ++ [(u, domain)]⟩
          match env.analyze u with
          | Except.ok payload =>
            let rec1 : LpRec :=
              ⟨u, payload, none, backfillShare args.impressionData domain,
               keyword, strOf ("キーワード")⟩
            kwScanResults env args keyword
              ⟨st1.lpsK ++ [(rec1, domain)], st1.existing, st1.analyzeCalls⟩ rs
          | Except.error _ => kwScanResults env args keyword st1 rs

/-- The keyword loop (lines 4412-4482). -/
def kwLoop (env : Env) (args : Args) : DiscState → List Str → DiscState
  | st, [] => st
  | st, k :: ks =>
    if 7 ≤ st.lpsK.length then st
    else
      match env.search k with
      | Except.error _ => kwLoop env args st ks
      | Except.ok [] => kwLoop env args st ks
      | Except.ok rs => kwLoop env args (kwScanResults env args k st (rs.take 5)) ks

/-- review_results['original'] (both strategies, lines 4264-4273 and
    4486-4496): set only when the url is truthy and the reviews call succeeds
    with a nonempty list. -/
def reviewsPart (env : Env) (args : Args) : Option (List Str) :=
  if args.originalUrl.isEmpty then none
  else
    match env.reviews args.originalUrl with
    | Except.ok rs => if rs.isEmpty then none else some rs
    | Except.error _ => none

/-- The returned dict of a discovery run.  aiSource records whether the dict
    carries the 'source': 'ai_filtering' key (only the AI strategy's own
    return does); lpsK/analyzeCalls carry the admission keys and the analyze
    trace as proof instrumentation. -/
structure DiscResult where
  lpsK : List (LpRec × Str)
  reviewsOriginal : Option (List Str)
  impressionData : Option (List CompRow)
  aiSource : Bool
  analyzeCalls : List (Str × Str)
deriving DecidableEq, Repr

def DiscResult.lps (r : DiscResult) : List LpRec := r.lpsK.map Prod.fst

def find_similar_landing_pages_original (env : Env) (args : Args) : DiscResult :=
  let st1 := csvLoop env args ⟨[], [], []⟩ args.additionalKeywords
  let st2 := if st1.lpsK.length < 7 then kwLoop env args st1 (genKeywordTerms env args) else st1
  { lpsK := st2.lpsK, reviewsOriginal := reviewsPart env args,
    impressionData := args.impressionData, aiSource := false,
    analyzeCalls := st2.analyzeCalls }

/-! #### The AI-filtered strategy -/

/-- The url chosen for one service name (lines 4164-4185): the completion
    gateway's stripped reply when it is http(s)-shaped, else the first search
    result's url; also the first result's url when the gateway raises. -/
def aiBestUrl (env : Env) (r0 : SearchResult) (name : Str) : Option Str :=
  match env.aiPickUrl name with
  | Except.ok resp =>
      let b := pyStrip resp
      if startsHttp b then some b else r0.url
  | Except.error _ => r0.url

/-- Step 4 (lines 4153-4230): per service name, search; ask the completion
    gateway for the best url, falling back to the first result's url when the
    reply is not http(s) or the gateway raises; dedup on the www-stripped
    netloc; analyze; per-service failures skip the service.  A first result
    without a url makes urlparse(None) raise inside the per-service try, so
    the service is skipped. -/
def aiServiceLoop (env : Env) (args : Args) : DiscState → List Str → DiscState
  | st, [] => st
  | st, name :: names =>
    if 7 ≤ st.lpsK.length then st
    else
      match env.search name with
      | Except.error _ => aiServiceLoop env args st names
      | Except.ok [] => aiServiceLoop env args st names
      | Except.ok (r0 :: _) =>
        match aiBestUrl env r0 name with
        | none => aiServiceLoop env args st names
        | some u =>
          let domain := stripWww (netloc u)
          if domain == stripWww (netloc args.originalUrl) then
            aiServiceLoop env args st names
          else if st.existing.contains domain then
            aiServiceLoop env args st names
          else
            let st1 : DiscState := ⟨st.lpsK, st.existing ++ [domain],
                                    st.analyzeCalls ++ [(u, domain)]⟩
            match env.analyze u with
            | Except.ok payload =>
              let rec1 : LpRec :=
                ⟨u, payload, some name, backfillShare args.impressionData domain,
                 name, strOf ("AI選別")⟩
              aiServiceLoop env args
                ⟨st1.lpsK ++ [(rec1, domain)], st1.existing, st1.analyzeCalls⟩ names
            | Except.error _ => aiServiceLoop env args st1 names

/-- The supplement merge (lines 4232-4259): remaining_slots is fixed before
    the loop; a record of the deterministic result is appended unchanged when
    its www-stripped netloc is not already collected. -/
def mergeSupplement (slots : Nat) :
    DiscState → Nat → List LpRec → DiscState
  | st, _, [] => st
  | st, added, rec1 :: rest =>
    if slots ≤ added then st
    else
      let resultDomain := stripWww (netloc rec1.url)
      if st.existing.contains resultDomain then mergeSupplement slots st added rest
      else
        mergeSupplement slots
          ⟨st.lpsK ++ [(rec1, resultDomain)], st.existing ++ [resultDomain], st.analyzeCalls⟩
          (added + 1) rest

def find_similar_landing_pages_with_ai_filtering (env : Env) (args : Args) : DiscResult :=
  let terms := dedupFirst (args.additionalKeywords ++ impDomains args.impressionData
                            ++ genKeywordTerms env args)
  let batches := collectBatches env (terms.take 10)
  if batches.isEmpty then find_similar_landing_pages_original env args
  else
    match env.aiServiceNames with
    | Except.error _ => find_similar_landing_pages_original env args
    | Except.ok resp =>
      match bracketSlice resp with
      | none => find_similar_landing_pages_original env args
      | some js =>
        match aiParsedNames js with
        | none => find_similar_landing_pages_original env args
        | some serviceNames =>
          let st := aiServiceLoop env args ⟨[], [], []⟩ serviceNames
          let st2 :=
            if st.lpsK.length < 3 then
              let orig := find_similar_landing_pages_original env args
              let merged := mergeSupplement (7 - st.lpsK.length)
                ⟨st.lpsK, st.existing, st.analyzeCalls ++ orig.analyzeCalls⟩ 0 orig.lps
              merged
            else st
          { lpsK := st2.lpsK, reviewsOriginal := reviewsPart env args,
            impressionData := args.impressionData, aiSource := true,
            analyzeCalls := st2.analyzeCalls }

/-- find_similar_landing_pages (lines 4506-4522): the USE_AI_FILTERING flag
    selects the strategy; the except branch around the AI call is unreachable
    in the typed model (the AI strategy already catches its own failures). -/
def find_similar_landing_pages (useAiFiltering : Bool) (env : Env) (args : Args) : DiscResult :=
  if useAiFiltering then find_similar_landing_pages_with_ai_filtering env args
  else find_similar_landing_pages_original env args

/-! ### handle_slack_event deduplication prelude (src/main.py lines 238-273) -/

/-- EVENT_CACHE_TTL = 60 * 5 seconds. -/
def EVENT_CACHE_TTL : ℚ := 300

/-- The process-wide cache: processed_event_ids (a set) and event_timestamps
    (a dict id → time). -/
structure EventCache where
  processedIds : List Str
  timestamps : List (Str × ℚ)
deriving DecidableEq, Repr

inductive EventOutcome
  | noEvent
  | duplicateSkipped
  | processed
deriving DecidableEq, Repr

def setTimestamp (l : List (Str × ℚ)) (k : Str) (v : ℚ) : List (Str × ℚ) :=
  if l.any (fun p => p.1 == k) then
    l.map (fun p => if p.1 == k then (k, v) else p)
  else l ++ [(k, v)]

/-- The deduplication prelude of handle_slack_event: sweep entries older than
    the TTL from both containers, then return Duplicate-skipped for a truthy
    already-cached event id, else record the id (at time now2, the second
    time.time() call) and continue into the event processing.  The processed
    outcome stands for the rest of the handler (out of scope here);
    a missing "event" key returns before the cache is touched. -/
def handle_slack_event_dedup (st : EventCache) (now now2 : ℚ)
    (hasEvent : Bool) (eventId : Option Str) : EventCache × EventOutcome :=
  if !hasEvent then (st, EventOutcome.noEvent)
  else
    let expired := ((st.timestamps.filter (fun p => EVENT_CACHE_TTL < now - p.2)).map Prod.fst)
    let st1 : EventCache :=
      ⟨st.processedIds.filter (fun i => !expired.contains i),
       st.timestamps.filter (fun p => !expired.contains p.1)⟩
    match eventId with
    | some eid =>
      if !eid.isEmpty && st1.processedIds.contains eid then
        (st1, EventOutcome.duplicateSkipped)
      else if !eid.isEmpty then
        (⟨st1.processedIds ++ [eid], setTimestamp st1.timestamps eid now2⟩,
         EventOutcome.processed)
      else (st1, EventOutcome.processed)
    | none => (st1, EventOutcome.processed)

/-! ### Predicates used by the claim statements -/

/-- d is exactly one domain-pattern token (the matcher at its start consumes
    all of it). -/
def domainFull (d : Str) : Prop := matchDomain d = some d

/-- A clean rendered numeral: a digit run, optionally followed by a dot and a
    digit run, as appears in "domain: NN%" output lines. -/
def isCleanNumeral (s : Str) : Bool :=
  let a := s.takeWhile Char.isDigit
  !a.isEmpty &&
    (s.drop a.length == [] ||
      ((s.drop a.length).headD ' ' == '.' && ((s.drop a.length).tail).all Char.isDigit))

/-- The spec's identifier-equivalence: normalized forms equal or one a
    substring of the other. -/
def sameId (a b : Str) : Prop := a <:+: b ∨ b <:+: a

/-- The fallback triggers of the AI-filtered strategy named by the spec: zero
    search-result batches, a raised completion error, or a reply with no
    parseable array. -/
def aiFallbackTrigger (env : Env) (args : Args) : Prop :=
  collectBatches env ((dedupFirst (args.additionalKeywords ++ impDomains args.impressionData
      ++ genKeywordTerms env args)).take 10) = [] ∨
  env.aiServiceNames = Except.error () ∨
  (∃ resp, env.aiServiceNames = Except.ok resp ∧
    (bracketSlice resp = none ∨
     (∃ js, bracketSlice resp = some js ∧ aiParsedNames js = none)))

/-- Well-formedness of the discovery loop state: existing_domains has no
    duplicates, and both the admitted records' keys and the analyze-call keys
    are (ordered) sublists of it; every analyze call was keyed by the
    www-stripped or the raw netloc of its url. -/
def DiscInv (st : DiscState) : Prop :=
  st.existing.Nodup ∧
  List.Sublist (st.lpsK.map Prod.snd) st.existing ∧
  List.Sublist (st.analyzeCalls.map Prod.snd) st.existing ∧
  (∀ p ∈ st.analyzeCalls, p.2 = stripWww (netloc p.1) ∨ p.2 = netloc p.1)

/-- A pair admitted by the table loop. -/
def CsvPair (env : Env) (args : Args) (p : LpRec × Str) : Prop :=
  p.1.source = strOf ("CSV") ∧ p.2 = stripWww (netloc p.1.url) ∧
  p.2 ≠ stripWww (netloc args.originalUrl) ∧ env.analyze p.1.url = Except.ok p.1.payload

/-- A pair admitted by the keyword loop: its key is the raw netloc. -/
def KwPair (env : Env) (args : Args) (p : LpRec × Str) : Prop :=
  p.1.source = strOf ("キーワード") ∧ p.2 = netloc p.1.url ∧
  p.2 ≠ netloc args.originalUrl ∧ env.analyze p.1.url = Except.ok p.1.payload

/-- A pair admitted by the AI service loop. -/
def AiPair (env : Env) (args : Args) (p : LpRec × Str) : Prop :=
  p.1.source = strOf ("AI選別") ∧ p.2 = stripWww (netloc p.1.url) ∧
  p.2 ≠ stripWww (netloc args.originalUrl) ∧ env.analyze p.1.url = Except.ok p.1.payload

/-- What holds of every returned (record, admission key) pair: the record was
    successfully analyzed, carries one of the three source tags, respects the
    seed-exclusion of its own loop, and its key is the www-stripped netloc —
    except for keyword-loop records, whose key may be the raw netloc. -/
def PairOk (env : Env) (args : Args) (p : LpRec × Str) : Prop :=
  env.analyze p.1.url = Except.ok p.1.payload ∧
  (p.1.source = strOf ("CSV") ∨ p.1.source = strOf ("キーワード") ∨
    p.1.source = strOf ("AI選別")) ∧
  (p.2 = stripWww (netloc p.1.url) ∨
    (p.1.source = strOf ("キーワード") ∧ p.2 = netloc p.1.url)) ∧
  ((p.1.source = strOf ("CSV") ∨ p.1.source = strOf ("AI選別")) →
    stripWww (netloc p.1.url) ≠ stripWww (netloc args.originalUrl)) ∧
  (p.1.source = strOf ("キーワード") → netloc p.1.url ≠ netloc args.originalUrl)

/-! ### Concrete gateway environments for the counterexample runs -/

/-- Seed https://www.s.com/; keyword search returns the seed's own page under
    the bare (non-www) host. -/
def envWwwSeed : Env where
  search := fun q =>
    if q == strOf ("k") then Except.ok [⟨some (strOf ("https://s.com/"))⟩] else Except.ok []
  genKeywords := Except.ok [strOf ("k")]
  aiServiceNames := Except.error ()
  aiPickUrl := fun _ => Except.error ()
  analyze := fun _ => Except.ok ⟨[], []⟩
  reviews := fun _ => Except.error ()

def argsWwwSeed : Args := ⟨strOf ("https://www.s.com/"), true, none, []⟩

/-- Two seed-table identifiers resolving to substring-related domains. -/
def envSubstring : Env where
  search := fun q =>
    if q == strOf ("a.example.com") then Except.ok [⟨some (strOf ("https://a.example.com/"))⟩]
    else if q == strOf ("example.com") then Except.ok [⟨some (strOf ("https://example.com/"))⟩]
    else Except.ok []
  genKeywords := Except.error ()
  aiServiceNames := Except.error ()
  aiPickUrl := fun _ => Except.error ()
  analyze := fun _ => Except.ok ⟨[], []⟩
  reviews := fun _ => Except.error ()

def argsSubstring : Args :=
  ⟨strOf ("https://seed.com/"), false, none, [strOf ("a.example.com"), strOf ("example.com")]⟩

/-- analyze always fails; the table loop and the keyword loop both reach the
    same page, once as www.a.com stripped to a.com and once raw. -/
def envRetry : Env where
  search := fun q =>
    if q == strOf ("a.com") then Except.ok [⟨some (strOf ("https://www.a.com/"))⟩]
    else if q == strOf ("kw") then Except.ok [⟨some (strOf ("https://www.a.com/"))⟩]
    else Except.ok []
  genKeywords := Except.ok [strOf ("kw")]
  aiServiceNames := Except.error ()
  aiPickUrl := fun _ => Except.error ()
  analyze := fun _ => Except.error ()
  reviews := fun _ => Except.error ()

def argsRetry : Args := ⟨strOf ("https://seed.com/"), true, none, [strOf ("a.com")]⟩

/-- A completion reply with no parseable array, with one working search term
    and one table identifier, for the fallback witness. -/
def envMalformed : Env where
  search := fun q =>
    if q == strOf ("t.com") then Except.ok [⟨some (strOf ("https://t.com/"))⟩] else Except.ok []
  genKeywords := Except.error ()
  aiServiceNames := Except.ok (strOf ("no list today"))
  aiPickUrl := fun _ => Except.error ()
  analyze := fun _ => Except.ok ⟨[], []⟩
  reviews := fun _ => Except.error ()

def argsMalformed : Args := ⟨strOf ("https://seed.com/"), false, none, [strOf ("t.com")]⟩

end Shinkan

/-! ## Theorems -/

namespace Shinkan

/-! ### Generic facts about the stable descending insertion sort -/

theorem mem_insertDescBy (lt : α → α → Bool) (x : α) (l : List α) (z : α) :
    z ∈ insertDescBy lt x l ↔ z = x ∨ z ∈ l := by
  induction l with
  | nil => simp [insertDescBy]
  | cons y ys ih =>
    by_cases h : lt x y = true
    · rw [insertDescBy, if_pos h]
      simp only [List.mem_cons, ih]
      tauto
    · rw [insertDescBy, if_neg h]
      simp only [List.mem_cons]

theorem mem_sortDescBy (lt : α → α → Bool) (l : List α) (z : α) :
    z ∈ sortDescBy lt l ↔ z ∈ l := by
  induction l with
  | nil => simp [sortDescBy]
  | cons y ys ih =>
    simp only [sortDescBy, List.foldr] at *
    rw [mem_insertDescBy]
    simp [ih]

theorem length_insertDescBy (lt : α → α → Bool) (x : α) (l : List α) :
    (insertDescBy lt x l).length = l.length + 1 := by
  induction l with
  | nil => simp [insertDescBy]
  | cons y ys ih =>
    by_cases h : lt x y = true <;> simp [insertDescBy, h, ih]

theorem length_sortDescBy (lt : α → α → Bool) (l : List α) :
    (sortDescBy lt l).length = l.length := by
  induction l with
  | nil => rfl
  | cons y ys ih => simp [sortDescBy, List.foldr, length_insertDescBy] at *; omega

theorem pairwise_insertDescBy (key : α → ℚ) (x : α) (l : List α)
    (h : l.Pairwise (fun a b => key b ≤ key a)) :
    (insertDescBy (fun a b => key a < key b) x l).Pairwise (fun a b => key b ≤ key a) := by
  induction l with
  | nil => simp [insertDescBy]
  | cons y ys ih =>
    rcases List.pairwise_cons.mp h with ⟨hy, hys⟩
    by_cases hlt : (key x < key y : Prop)
    · have : (decide (key x < key y)) = true := by simpa using hlt
      simp only [insertDescBy, this, if_pos]
      refine List.pairwise_cons.mpr ⟨?_, ih hys⟩
      intro z hz
      rcases (mem_insertDescBy _ x ys z).mp hz with rfl | hz'
      · exact le_of_lt hlt
      · exact hy z hz'
    · have : (decide (key x < key y)) = false := by simpa using hlt
      simp only [insertDescBy, this]
      refine List.pairwise_cons.mpr ⟨?_, h⟩
      intro z hz
      rcases List.mem_cons.mp hz with rfl | hz'
      · exact not_lt.mp hlt
      · exact le_trans (hy z hz') (not_lt.mp hlt)

theorem pairwise_sortDescBy (key : α → ℚ) (l : List α) :
    (sortDescBy (fun a b => key a < key b) l).Pairwise (fun a b => key b ≤ key a) := by
  induction l with
  | nil => simp [sortDescBy]
  | cons y ys ih => exact pairwise_insertDescBy key y _ ih

theorem insertDescBy_eq_cons (key : α → ℚ) (x : α) (l : List α)
    (h : ∀ z ∈ l, key z ≤ key x) :
    insertDescBy (fun a b => key a < key b) x l = x :: l := by
  cases l with
  | nil => rfl
  | cons y ys =>
    have : ¬ (key x < key y) := not_lt.mpr (h y (by simp))
    simp [insertDescBy, this]

theorem sortDescBy_eq_self (key : α → ℚ) (l : List α)
    (h : l.Pairwise (fun a b => key b ≤ key a)) :
    sortDescBy (fun a b => key a < key b) l = l := by
  induction l with
  | nil => rfl
  | cons y ys ih =>
    rcases List.pairwise_cons.mp h with ⟨hy, hys⟩
    have : sortDescBy (fun a b => key a < key b) (y :: ys)
        = insertDescBy (fun a b => key a < key b) y (sortDescBy (fun a b => key a < key b) ys) := rfl
    rw [this, ih hys, insertDescBy_eq_cons key y ys hy]

theorem filter_insertDescBy (key : α → ℚ) (p : α → Bool) (v : ℚ)
    (hp : ∀ z, p z = true → key z = v) (x : α) (l : List α) :
    (insertDescBy (fun a b => key a < key b) x l).filter p =
      if p x then x :: l.filter p else l.filter p := by
  induction l with
  | nil => cases hx : p x <;> simp [insertDescBy, hx]
  | cons y ys ih =>
    by_cases hlt : (key x < key y : Prop)
    · have hd : (decide (key x < key y)) = true := by simpa using hlt
      simp only [insertDescBy, hd, if_pos]
      cases hx : p x with
      | false =>
        cases hy : p y <;> simp [List.filter, hy, ih, hx]
      | true =>
        have hxv := hp x hx
        cases hy : p y with
        | false => simp [List.filter, hy, ih, hx]
        | true =>
          exfalso
          have hyv := hp y hy
          rw [hxv, hyv] at hlt
          exact lt_irrefl _ hlt
    · have hd : (decide (key x < key y)) = false := by simpa using hlt
      simp only [insertDescBy, hd]
      cases hx : p x <;> simp [List.filter, hx]

theorem filter_sortDescBy (key : α → ℚ) (p : α → Bool) (v : ℚ)
    (hp : ∀ z, p z = true → key z = v) (l : List α) :
    (sortDescBy (fun a b => key a < key b) l).filter p = l.filter p := by
  induction l with
  | nil => rfl
  | cons y ys ih =>
    have : sortDescBy (fun a b => key a < key b) (y :: ys)
        = insertDescBy (fun a b => key a < key b) y (sortDescBy (fun a b => key a < key b) ys) := rfl
    rw [this, filter_insertDescBy key p v hp, ih]
    cases hy : p y <;> simp [List.filter, hy]

/-! ### The extractor's final filter-sort-cap -/

theorem extract_eq_postFilter {text : Str} {pairs : List ShareRec}
    (h : cascadePairs text = Except.ok pairs) :
    extract_domains_and_shares text = postFilter pairs := by
  simp [extract_domains_and_shares, extractBody, h]

theorem extract_eq_empty_of_error {text : Str}
    (h : cascadePairs text = Except.error ()) :
    extract_domains_and_shares text = [] := by
  simp [extract_domains_and_shares, extractBody, h]

theorem length_postFilter_le (pairs : List ShareRec) : (postFilter pairs).length ≤ 7 := by
  rw [postFilter, List.length_take]
  exact min_le_left _ _

theorem keep_of_mem_postFilter {pairs : List ShareRec} {r : ShareRec}
    (h : r ∈ postFilter pairs) : postFilterKeep r = true := by
  have h1 : r ∈ sortDescBy (fun a b => a.value < b.value) (pairs.filter postFilterKeep) :=
    List.take_subset 7 _ h
  have h2 : r ∈ pairs.filter postFilterKeep := (mem_sortDescBy _ _ r).mp h1
  exact (List.mem_filter.mp h2).2

theorem value_ge_of_keep {r : ShareRec} (h : postFilterKeep r = true) :
    10 ≤ r.value ∧ containsLt10 r.raw = false := by
  rcases Bool.and_eq_true_iff.mp h with ⟨h1, h2⟩
  exact ⟨by exact_mod_cast of_decide_eq_true h1, by simpa using h2⟩

theorem pairwise_postFilter (pairs : List ShareRec) :
    (postFilter pairs).Pairwise (fun a b => b.value ≤ a.value) := by
  exact List.Pairwise.sublist (List.take_sublist 7 _)
    (pairwise_sortDescBy ShareRec.value (pairs.filter postFilterKeep))

/-- The length cap, the share floor, descending order, and ties in input order
    hold for every extraction; only the upper bound 100 of the claim fails. -/
theorem extractShareTable_bounds (text : Str) :
    (extract_domains_and_shares text).length ≤ 7 ∧
    (∀ r ∈ extract_domains_and_shares text, 10 ≤ r.value) ∧
    (extract_domains_and_shares text).Pairwise (fun a b => b.value ≤ a.value) ∧
    (∀ pairs, cascadePairs text = Except.ok pairs → ∀ v : ℚ,
      ∃ t, (pairs.filter postFilterKeep).filter (fun r => r.value == v)
        = ((extract_domains_and_shares text).filter (fun r => r.value == v)) ++ t) := by
  cases hc : cascadePairs text with
  | error e =>
    cases e
    rw [extract_eq_empty_of_error hc]
    refine ⟨by simp, by simp, by simp, ?_⟩
    intro pairs hp
    cases hp
  | ok pairs =>
    rw [extract_eq_postFilter hc]
    refine ⟨length_postFilter_le pairs, ?_, pairwise_postFilter pairs, ?_⟩
    · intro r hr
      exact (value_ge_of_keep (keep_of_mem_postFilter hr)).1
    · intro pairs' hp v
      cases hp
      refine ⟨((sortDescBy (fun a b => a.value < b.value)
          (pairs.filter postFilterKeep)).drop 7).filter (fun r => r.value == v), ?_⟩
      have hfib : ∀ z : ShareRec, (fun r => r.value == v) z = true → z.value = v := by
        intro z hz
        simpa using hz
      rw [← filter_sortDescBy ShareRec.value (fun r => r.value == v) v hfib
            (pairs.filter postFilterKeep)]
      rw [postFilter]
      rw [← List.filter_append, List.take_append_drop]

/-- Witness for extractShareTable_bounds: a concrete cascade output with a tie
    at 42 keeps the tied records in input order. -/
theorem extractShareTable_bounds_witness :
    cascadePairs (strOf ("a.com 42%\nb.net 42%\nc.org 50%")) = Except.ok
      [⟨strOf ("a.com"), 42, strOf ("42%")⟩, ⟨strOf ("b.net"), 42, strOf ("42%")⟩,
       ⟨strOf ("c.org"), 50, strOf ("50%")⟩] ∧
    (∃ t, ([⟨strOf ("a.com"), 42, strOf ("42%")⟩, ⟨strOf ("b.net"), 42, strOf ("42%")⟩,
            (⟨strOf ("c.org"), 50, strOf ("50%")⟩ : ShareRec)].filter postFilterKeep).filter
          (fun r => r.value == (42 : ℚ))
        = ((extract_domains_and_shares (strOf ("a.com 42%\nb.net 42%\nc.org 50%"))).filter
            (fun r => r.value == (42 : ℚ))) ++ t) :=
  ⟨by decide,
   (extractShareTable_bounds (strOf ("a.com 42%\nb.net 42%\nc.org 50%"))).2.2.2
     _ (by decide) 42⟩

/-- A share of 250% is kept: the claimed upper bound 100 does not hold. -/
theorem extractShareTable_share_above_100 :
    extract_domains_and_shares (strOf ("example.com 250%")) =
      [⟨strOf ("example.com"), 250, strOf ("250%")⟩] ∧ (100 : ℚ) < 250 := by
  constructor
  · decide
  · norm_num

/-- On "example.com 42" stages 1-2 find nothing, the stage-3 pattern matches,
    and the 2-name unpacking of its 3-group findall tuples raises ValueError,
    so the except handler returns []; on "42% example.com" stage 3 finds no
    match and the stage-4 percent regex (double-escaped inside a raw string)
    finds nothing either, so the result is again [] instead of the pairs the
    spec describes. -/
theorem looseRegex_and_positional_stages_dead :
    cascadePairs (strOf ("example.com 42")) = Except.error () ∧
    extract_domains_and_shares (strOf ("example.com 42")) = [] ∧
    extract_domains_and_shares (strOf ("42% example.com")) = [] ∧
    brokenFindall (strOf ("42% example.com")) = [] := by
  decide

/-- Extraction never raises: the try/except handler turns every internal
    failure into [], and garbage or empty input yields []. -/
theorem extractShareTable_never_raises :
    (∀ text : Str, extractBody text = Except.error () → extract_domains_and_shares text = []) ∧
    extract_domains_and_shares (strOf ("hello world")) = [] ∧
    extract_domains_and_shares [] = [] := by
  refine ⟨?_, by decide, by decide⟩
  intro text h
  simp [extract_domains_and_shares, h]

theorem extractShareTable_never_raises_witness :
    extractBody (strOf ("example.com 42")) = Except.error () ∧
    extract_domains_and_shares (strOf ("example.com 42")) = [] :=
  ⟨by decide, extractShareTable_never_raises.1 (strOf ("example.com 42")) (by decide)⟩

theorem half_mkRat (v : ℚ) : mkRat v.num (2 * v.den) = v / 2 := by
  have hden : (v.den : ℚ) ≠ 0 := by
    exact_mod_cast v.den_nz
  have hnum : (v.num : ℚ) = v * v.den := (div_eq_iff hden).mp (Rat.num_div_den v)
  rw [Rat.mkRat_eq_divInt, Rat.divInt_eq_div]
  push_cast
  field_simp
  rw [hnum]
  ring

/-- The cascade extractor drops censored and below-floor shares; the
    tab-separated impression-share parser instead keeps a "< X %" row with the
    substituted value X/2 (here "< 20 %" stays as 10). -/
theorem censored_share_handling :
    (∀ text : Str, ∀ r ∈ extract_domains_and_shares text,
        10 ≤ r.value ∧ containsLt10 r.raw = false) ∧
    (∀ share : Str, ∀ v : ℚ, (strOf ("< ")).isPrefixOf share = true →
        pyFloat (removeAll (strOf (" %")) (removeAll (strOf ("< ")) share)) = some v →
        impShareValue share = some (v / 2)) ∧
    ((parse_impression_share_data
        (strOf ("表示 URL ドメイン\tインプレッション シェア\nbar.com\t< 20 %"))).map
      (fun p => p.2.map ImpRow.shareValue) = some [10]) := by
  refine ⟨?_, ?_, by decide⟩
  · intro text r hr
    cases hc : cascadePairs text with
    | error e =>
      cases e
      rw [extract_eq_empty_of_error hc] at hr
      cases hr
    | ok pairs =>
      rw [extract_eq_postFilter hc] at hr
      exact value_ge_of_keep (keep_of_mem_postFilter hr)
  · intro share v h1 h2
    simp [impShareValue, h1, h2, half_mkRat]

theorem censored_share_handling_witness :
    ((strOf ("< ")).isPrefixOf (strOf ("< 10 %")) = true ∧
      pyFloat (removeAll (strOf (" %")) (removeAll (strOf ("< ")) (strOf ("< 10 %"))))
        = some 10) ∧
    impShareValue (strOf ("< 10 %")) = some ((10 : ℚ) / 2) :=
  ⟨⟨by decide, by decide⟩,
   censored_share_handling.2.1 (strOf ("< 10 %")) 10 (by decide) (by decide)⟩

/-! ### The event-deduplication cache -/

theorem eq_of_mem_nodup_keys {l : List (Str × ℚ)} (hnd : (l.map Prod.fst).Nodup)
    {k : Str} {a b : ℚ} (ha : (k, a) ∈ l) (hb : (k, b) ∈ l) : a = b := by
  induction l with
  | nil => cases ha
  | cons p t ih =>
    rcases List.pairwise_cons.mp hnd with ⟨hhead, htail⟩
    rcases List.mem_cons.mp ha with rfl | ha'
    · rcases List.mem_cons.mp hb with hb0 | hb'
      · exact (congrArg Prod.snd hb0).symm
      · exact absurd rfl (hhead k (List.mem_map_of_mem Prod.fst hb'))
    · rcases List.mem_cons.mp hb with rfl | hb'
      · exact absurd rfl (hhead k (List.mem_map_of_mem Prod.fst ha'))
      · exact ih htail ha' hb'

/-- The entry point is idempotent against at-least-once delivery: an id cached
    within the TTL yields Duplicate-skipped (no further processing); the sweep
    removes entries strictly older than the TTL from both containers, so the
    same id arriving after expiry is processed again and re-cached at the new
    time. -/
theorem slackEvent_dedup_ttl (st : EventCache) (now now2 t0 : ℚ) (eid : Str)
    (hnd : (st.timestamps.map Prod.fst).Nodup)
    (hmem : (eid, t0) ∈ st.timestamps) :
    (eid ≠ [] → eid ∈ st.processedIds → now - t0 ≤ EVENT_CACHE_TTL →
      (handle_slack_event_dedup st now now2 true (some eid)).2
        = EventOutcome.duplicateSkipped) ∧
    (EVENT_CACHE_TTL < now - t0 → eid ≠ [] →
      (handle_slack_event_dedup st now now2 true (some eid)).2 = EventOutcome.processed ∧
      (eid, now2) ∈ (handle_slack_event_dedup st now now2 true (some eid)).1.timestamps ∧
      eid ∈ (handle_slack_event_dedup st now now2 true (some eid)).1.processedIds) ∧
    (EVENT_CACHE_TTL < now - t0 →
      eid ∉ (handle_slack_event_dedup st now now2 true none).1.processedIds ∧
      ∀ p ∈ (handle_slack_event_dedup st now now2 true none).1.timestamps, p.1 ≠ eid) := by
  have hexp_mem : EVENT_CACHE_TTL < now - t0 →
      eid ∈ (st.timestamps.filter (fun p => decide (EVENT_CACHE_TTL < now - p.2))).map Prod.fst := by
    intro hlt
    exact List.mem_map_of_mem Prod.fst (List.mem_filter.mpr ⟨hmem, by simpa using hlt⟩)
  have hexp_not : now - t0 ≤ EVENT_CACHE_TTL →
      eid ∉ (st.timestamps.filter (fun p => decide (EVENT_CACHE_TTL < now - p.2))).map Prod.fst := by
    intro hle hin
    rcases List.mem_map.mp hin with ⟨⟨k, ts⟩, hkts, hk⟩
    rcases List.mem_filter.mp hkts with ⟨hmem2, hts⟩
    have hts2 : EVENT_CACHE_TTL < now - ts := by simpa using hts
    cases hk
    have : ts = t0 := eq_of_mem_nodup_keys hnd hmem2 hmem
    subst this
    exact absurd hts2 (not_lt.mpr hle)
  refine ⟨?_, ?_, ?_⟩
  · intro hne hproc hle
    have hemp : eid.isEmpty = false := by
      cases eid with
      | nil => exact absurd rfl hne
      | cons c cs => rfl
    have h1 : eid ∈ st.processedIds.filter
        (fun i => !((st.timestamps.filter (fun p => decide (EVENT_CACHE_TTL < now - p.2))).map
            Prod.fst).contains i) := by
      refine List.mem_filter.mpr ⟨hproc, ?_⟩
      rw [Bool.not_eq_true']
      rw [← Bool.not_eq_true]
      intro hcon
      exact hexp_not hle (List.elem_iff.mp hcon)
    have hcontains : (st.processedIds.filter
        (fun i => !((st.timestamps.filter (fun p => decide (EVENT_CACHE_TTL < now - p.2))).map
            Prod.fst).contains i)).contains eid = true := List.elem_iff.mpr h1
    simp only [handle_slack_event_dedup]
    rw [hemp, hcontains]
    rfl
  · intro hlt hne
    have hemp : eid.isEmpty = false := by
      cases eid with
      | nil => exact absurd rfl hne
      | cons c cs => rfl
    have hnotin : eid ∉ st.processedIds.filter
        (fun i => !((st.timestamps.filter (fun p => decide (EVENT_CACHE_TTL < now - p.2))).map
            Prod.fst).contains i) := by
      intro hin
      rcases List.mem_filter.mp hin with ⟨_, hni⟩
      rw [Bool.not_eq_true'] at hni
      exact Bool.false_ne_true (hni ▸ List.elem_iff.mpr (hexp_mem hlt))
    have hcontains : (st.processedIds.filter
        (fun i => !((st.timestamps.filter (fun p => decide (EVENT_CACHE_TTL < now - p.2))).map
            Prod.fst).contains i)).contains eid = false := by
      rw [← Bool.not_eq_true, List.elem_iff]
      exact hnotin
    have hany : (st.timestamps.filter
        (fun p => !((st.timestamps.filter (fun q => decide (EVENT_CACHE_TTL < now - q.2))).map
            Prod.fst).contains p.1)).any (fun p => p.1 == eid) = false := by
      rw [← Bool.not_eq_true, List.any_eq_true]
      rintro ⟨p, hp, hpe⟩
      have hpeid : p.1 = eid := by simpa using hpe
      rcases List.mem_filter.mp hp with ⟨_, hni⟩
      rw [Bool.not_eq_true'] at hni
      rw [hpeid] at hni
      exact Bool.false_ne_true (hni ▸ List.elem_iff.mpr (hexp_mem hlt))
    refine ⟨?_, ?_, ?_⟩
    · simp only [handle_slack_event_dedup]
      rw [hemp, hcontains]
      rfl
    · simp only [handle_slack_event_dedup]
      rw [hemp, hcontains]
      show (eid, now2) ∈ setTimestamp _ eid now2
      rw [setTimestamp, if_neg (by rw [hany]; intro h; cases h)]
      simp
    · simp only [handle_slack_event_dedup]
      rw [hemp, hcontains]
      show eid ∈ _ ++ [eid]
      simp
  · intro hlt
    constructor
    · intro hin
      simp only [handle_slack_event_dedup] at hin
      rcases List.mem_filter.mp hin with ⟨_, hni⟩
      rw [Bool.not_eq_true'] at hni
      exact Bool.false_ne_true (hni ▸ List.elem_iff.mpr (hexp_mem hlt))
    · intro p hp
      simp only [handle_slack_event_dedup] at hp
      rcases List.mem_filter.mp hp with ⟨_, hni⟩
      rw [Bool.not_eq_true'] at hni
      intro hpe
      rw [hpe] at hni
      exact Bool.false_ne_true (hni ▸ List.elem_iff.mpr (hexp_mem hlt))

theorem slackEvent_dedup_ttl_witness :
    ((200 : ℚ) - 100 ≤ EVENT_CACHE_TTL ∧ EVENT_CACHE_TTL < (500 : ℚ) - 100) ∧
    (handle_slack_event_dedup ⟨[strOf ("E1")], [(strOf ("E1"), 100)]⟩ 200 201 true
        (some (strOf ("E1")))).2 = EventOutcome.duplicateSkipped ∧
    (handle_slack_event_dedup ⟨[strOf ("E1")], [(strOf ("E1"), 100)]⟩ 500 501 true
        (some (strOf ("E1")))).2 = EventOutcome.processed :=
  ⟨⟨by norm_num [EVENT_CACHE_TTL], by norm_num [EVENT_CACHE_TTL]⟩,
   (slackEvent_dedup_ttl ⟨[strOf ("E1")], [(strOf ("E1"), 100)]⟩ 200 201 100 (strOf ("E1"))
      (by decide) (by decide)).1 (by decide) (by decide) (by norm_num [EVENT_CACHE_TTL]),
   ((slackEvent_dedup_ttl ⟨[strOf ("E1")], [(strOf ("E1"), 100)]⟩ 500 501 100 (strOf ("E1"))
      (by decide) (by decide)).2.1 (by norm_num [EVENT_CACHE_TTL]) (by decide)).1⟩

/-- A censored "< 10 %" row is retained by parse_impression_share_data with
    the substituted value 5 (half the bound), not excluded. -/
theorem impressionShareParser_keeps_censored_row :
    (parse_impression_share_data
        (strOf ("表示 URL ドメイン\tインプレッション シェア\nfoo.com\t< 10 %"))).map
      (fun p => p.2.map ImpRow.shareValue) = some [5] ∧ (5 : ℚ) < 10 := by
  constructor
  · decide
  · norm_num

end Shinkan

namespace Shinkan

/-! ### Identifier equivalence: where substring matching is and is not used -/

theorem strIn_iff_substring (pat s : Str) : strIn pat s = true ↔ pat <:+: s := by
  rw [strIn, List.any_eq_true]
  constructor
  · rintro ⟨t, ht, hp⟩
    exact List.infix_iff_prefix_suffix.mpr
      ⟨t, List.isPrefixOf_iff_prefix.mp hp, (List.mem_tails _ _).mp ht⟩
  · intro h
    rcases List.infix_iff_prefix_suffix.mp h with ⟨t, hp, hs⟩
    exact ⟨t, (List.mem_tails _ _).mpr hs, List.isPrefixOf_iff_prefix.mpr hp⟩

/-- The table loop admits a second record whose www-stripped domain is a
    strict substring of an already-collected one: duplicate detection is exact
    equality, not the substring rule. -/
theorem dedup_is_not_substring_matching :
    ((find_similar_landing_pages_original envSubstring argsSubstring).lpsK.map Prod.snd)
      = [strOf ("a.example.com"), strOf ("example.com")] ∧
    strIn (strOf ("example.com")) (strOf ("a.example.com")) = true := by
  constructor
  · decide
  · decide

/-- Where each comparison rule is used: share back-fill matches a competitor
    row iff the bidirectional substring rule holds (first conjunct); the table
    loop skips a result iff the substring rule fails against the identifier
    (second conjunct); the keyword loop's duplicate check is exact membership
    of the raw netloc in existing_domains — a non-member is admitted, a member
    is skipped, regardless of substring relations (last two conjuncts). -/
theorem identifier_matching_rules :
    (∀ comps : List CompRow, ∀ k : Str,
      (backfillShare (some comps) k).isSome = true ↔
        ∃ comp ∈ comps, sameId (stripWww (comp.displayDomain.getD [])) k) ∧
    (∀ env args ident st r u, r.url = some u → u ≠ [] →
      ¬ sameId ident (stripWww (netloc u)) →
      csvScanResults env args ident st [r] = st) ∧
    (∀ env args keyword st r u, r.url = some u → u ≠ [] →
      st.lpsK.length < 7 →
      netloc u ∈ st.existing →
      kwScanResults env args keyword st [r] = st) ∧
    (∀ env args keyword st r u payload, r.url = some u → u ≠ [] →
      st.lpsK.length < 7 →
      netloc u ≠ netloc args.originalUrl →
      netloc u ∉ st.existing →
      env.analyze u = Except.ok payload →
      kwScanResults env args keyword st [r] =
        ⟨st.lpsK ++ [(⟨u, payload, none, backfillShare args.impressionData (netloc u),
            keyword, strOf ("キーワード")⟩, netloc u)],
         st.existing ++ [netloc u], st.analyzeCalls ++ [(u, netloc u)]⟩) := by
  refine ⟨?_, ?_, ?_, ?_⟩
  · intro comps k
    rw [backfillShare]
    have hmapiso : ∀ (o : Option CompRow) (f : CompRow → Str × ℚ),
        (o.map f).isSome = o.isSome := by
      intro o f
      cases o <;> rfl
    rw [hmapiso]
    rw [List.find?_isSome]
    constructor
    · rintro ⟨comp, hc, hp⟩
      refine ⟨comp, hc, ?_⟩
      rcases Bool.or_eq_true_iff.mp hp with h | h
      · exact Or.inl (strIn_iff_substring _ _ |>.mp h)
      · exact Or.inr (strIn_iff_substring _ _ |>.mp h)
    · rintro ⟨comp, hc, hs | hs⟩
      · exact ⟨comp, hc, Bool.or_eq_true_iff.mpr (Or.inl ((strIn_iff_substring _ _).mpr hs))⟩
      · exact ⟨comp, hc, Bool.or_eq_true_iff.mpr (Or.inr ((strIn_iff_substring _ _).mpr hs))⟩
  · intro env args ident st r u hu hne hnot
    have hget : (r.url).getD [] = u := by rw [hu]; rfl
    have hempty : u.isEmpty = false := by
      cases u with
      | nil => exact absurd rfl hne
      | cons c cs => rfl
    have hc1 : strIn ident (stripWww (netloc u)) = false := by
      rw [← Bool.not_eq_true, strIn_iff_substring]
      intro h
      exact hnot (Or.inl h)
    have hc2 : strIn (stripWww (netloc u)) ident = false := by
      rw [← Bool.not_eq_true, strIn_iff_substring]
      intro h
      exact hnot (Or.inr h)
    simp only [csvScanResults, hget, hempty, hc1, hc2]
    rfl
  · intro env args keyword st r u hu hne hlen hmem
    have hget : (r.url).getD [] = u := by rw [hu]; rfl
    have hempty : u.isEmpty = false := by
      cases u with
      | nil => exact absurd rfl hne
      | cons c cs => rfl
    have hcon : st.existing.contains (netloc u) = true := List.elem_iff.mpr hmem
    simp only [kwScanResults, hget, hempty, if_neg (not_le.mpr hlen)]
    by_cases hdom : (netloc u == netloc args.originalUrl) = true
    · simp [hdom, kwScanResults]
    · simp [Bool.eq_false_iff.mpr hdom, hcon, kwScanResults]
      intro h
      exact absurd hmem h
  · intro env args keyword st r u payload hu hne hlen hdom hmem hana
    have hget : (r.url).getD [] = u := by rw [hu]; rfl
    have hempty : u.isEmpty = false := by
      cases u with
      | nil => exact absurd rfl hne
      | cons c cs => rfl
    have hdom' : (netloc u == netloc args.originalUrl) = false := by
      rw [← Bool.not_eq_true, beq_iff_eq]
      exact hdom
    have hcon : st.existing.contains (netloc u) = false := by
      rw [← Bool.not_eq_true, List.elem_iff]
      exact hmem
    simp only [kwScanResults, hget, hempty, if_neg (not_le.mpr hlen), hdom', hcon, hana]
    rfl

theorem identifier_matching_rules_witness :
    ((backfillShare (some [⟨some (strOf ("ex.com")), some (strOf ("12%")), 12⟩])
        (strOf ("sub.ex.com"))).isSome = true) ∧
    sameId (stripWww ((some (strOf ("ex.com")) : Option Str).getD [])) (strOf ("sub.ex.com")) :=
  ⟨(identifier_matching_rules.1 [⟨some (strOf ("ex.com")), some (strOf ("12%")), 12⟩]
      (strOf ("sub.ex.com"))).mpr
    ⟨⟨some (strOf ("ex.com")), some (strOf ("12%")), 12⟩, by decide, Or.inl (by decide)⟩,
   Or.inl (by decide)⟩

end Shinkan

namespace Shinkan

/-! ### Discovery loop invariants -/

theorem discInv_append (st : DiscState) (k : Str) (u : Str)
    (h : DiscInv st) (hk : k ∉ st.existing)
    (hform : k = stripWww (netloc u) ∨ k = netloc u) :
    DiscInv ⟨st.lpsK, st.existing ++ [k], st.analyzeCalls ++ [(u, k)]⟩ := by
  rcases h with ⟨h1, h2, h3, h4⟩
  refine ⟨?_, ?_, ?_, ?_⟩
  · refine List.Nodup.append h1 (List.nodup_singleton k) ?_
    intro a ha hak
    rcases List.mem_singleton.mp hak with rfl
    exact hk ha
  · exact h2.trans (List.sublist_append_left _ _)
  · simpa using List.Sublist.append h3 (List.Sublist.refl [k])
  · intro q hq
    rcases List.mem_append.mp hq with hq' | hq'
    · exact h4 q hq'
    · rcases List.mem_singleton.mp hq' with rfl
      exact hform

theorem discInv_append_rec (st : DiscState) (rec : LpRec) (k : Str) (u : Str)
    (h : DiscInv st) (hk : k ∉ st.existing)
    (hform : k = stripWww (netloc u) ∨ k = netloc u) :
    DiscInv ⟨st.lpsK ++ [(rec, k)], st.existing ++ [k], st.analyzeCalls ++ [(u, k)]⟩ := by
  rcases h with ⟨h1, h2, h3, h4⟩
  refine ⟨?_, ?_, ?_, ?_⟩
  · refine List.Nodup.append h1 (List.nodup_singleton k) ?_
    intro a ha hak
    rcases List.mem_singleton.mp hak with rfl
    exact hk ha
  · simpa using List.Sublist.append h2 (List.Sublist.refl [k])
  · simpa using List.Sublist.append h3 (List.Sublist.refl [k])
  · intro q hq
    rcases List.mem_append.mp hq with hq' | hq'
    · exact h4 q hq'
    · rcases List.mem_singleton.mp hq' with rfl
      exact hform

/-- Merge-state append, where no analyze call is made (the merge state's
    analyze trace may mix both strategies, so only the existing-domains part
    of the invariant is tracked here). -/
theorem mergeInv_append (st : DiscState) (rec : LpRec) (k : Str)
    (h1 : st.existing.Nodup) (h2 : List.Sublist (st.lpsK.map Prod.snd) st.existing)
    (hk : k ∉ st.existing) :
    (st.existing ++ [k]).Nodup ∧
      List.Sublist ((st.lpsK ++ [(rec, k)]).map Prod.snd) (st.existing ++ [k]) := by
  constructor
  · refine List.Nodup.append h1 (List.nodup_singleton k) ?_
    intro a ha hak
    rcases List.mem_singleton.mp hak with rfl
    exact hk ha
  · simpa using List.Sublist.append h2 (List.Sublist.refl [k])

theorem csvScan_spec (env : Env) (args : Args) (ident : Str) :
    ∀ (rs : List SearchResult) (st : DiscState), DiscInv st →
      DiscInv (csvScanResults env args ident st rs) ∧
      (csvScanResults env args ident st rs).lpsK.length ≤ st.lpsK.length + 1 ∧
      (∀ p ∈ (csvScanResults env args ident st rs).lpsK,
        p ∈ st.lpsK ∨ CsvPair env args p) := by
  intro rs
  induction rs with
  | nil =>
    intro st h
    exact ⟨h, Nat.le_succ _, fun p hp => Or.inl hp⟩
  | cons r rs ih =>
    intro st h
    show DiscInv (csvScanResults env args ident st (r :: rs)) ∧ _
    by_cases hu : ((r.url).getD []).isEmpty = true
    · have e : csvScanResults env args ident st (r :: rs) = csvScanResults env args ident st rs := by
        simp only [csvScanResults, hu]
        rfl
      rw [e]
      exact ih st h
    · rw [Bool.not_eq_true] at hu
      by_cases hsub : (strIn ident (stripWww (netloc ((r.url).getD []))) ||
          strIn (stripWww (netloc ((r.url).getD []))) ident) = true
      · by_cases hseed : (stripWww (netloc ((r.url).getD [])) ==
            stripWww (netloc args.originalUrl)) = true
        · have e : csvScanResults env args ident st (r :: rs)
              = csvScanResults env args ident st rs := by
            simp only [csvScanResults, hu, hsub, hseed]
            rfl
          rw [e]
          exact ih st h
        · by_cases hcon : st.existing.contains (stripWww (netloc ((r.url).getD []))) = true
          · have e : csvScanResults env args ident st (r :: rs)
                = csvScanResults env args ident st rs := by
              simp only [csvScanResults, hu, hsub, hseed, hcon]
              rfl
            rw [e]
            exact ih st h
          · have hmem : stripWww (netloc ((r.url).getD [])) ∉ st.existing :=
              fun hm => hcon (List.elem_iff.mpr hm)
            cases hana : env.analyze ((r.url).getD []) with
            | ok payload =>
              have e : csvScanResults env args ident st (r :: rs) =
                  ⟨st.lpsK ++ [(⟨(r.url).getD [], payload, none,
                      backfillShare args.impressionData (stripWww (netloc ((r.url).getD []))),
                      ident, strOf ("CSV")⟩, stripWww (netloc ((r.url).getD [])))],
                   st.existing ++ [stripWww (netloc ((r.url).getD []))],
                   st.analyzeCalls ++ [((r.url).getD [], stripWww (netloc ((r.url).getD [])))]⟩ := by
                simp only [csvScanResults, hu, hsub, hseed, hcon, hana]
                rfl
              rw [e]
              refine ⟨discInv_append_rec st _ _ _ h hmem (Or.inl rfl), by simp, ?_⟩
              intro p hp
              rcases List.mem_append.mp hp with hp' | hp'
              · exact Or.inl hp'
              · rcases List.mem_singleton.mp hp' with rfl
                refine Or.inr ⟨rfl, rfl, ?_, hana⟩
                exact fun heq => hseed (beq_iff_eq.mpr heq)
            | error e0 =>
              cases e0
              have e : csvScanResults env args ident st (r :: rs) =
                  csvScanResults env args ident
                    ⟨st.lpsK, st.existing ++ [stripWww (netloc ((r.url).getD []))],
                     st.analyzeCalls ++ [((r.url).getD [], stripWww (netloc ((r.url).getD [])))]⟩
                    rs := by
                simp only [csvScanResults, hu, hsub, hseed, hcon, hana]
                rfl
              rw [e]
              exact ih _ (discInv_append st _ _ h hmem (Or.inl rfl))
      · have e : csvScanResults env args ident st (r :: rs)
            = csvScanResults env args ident st rs := by
          simp only [csvScanResults, hu, hsub]
          rfl
        rw [e]
        exact ih st h

theorem csvLoop_spec (env : Env) (args : Args) :
    ∀ (ds : List Str) (st : DiscState), DiscInv st →
      DiscInv (csvLoop env args st ds) ∧
      (st.lpsK.length ≤ 7 → (csvLoop env args st ds).lpsK.length ≤ 7) ∧
      (∀ p ∈ (csvLoop env args st ds).lpsK, p ∈ st.lpsK ∨ CsvPair env args p) := by
  intro ds
  induction ds with
  | nil =>
    intro st h
    exact ⟨h, fun hl => hl, fun p hp => Or.inl hp⟩
  | cons d ds ih =>
    intro st h
    by_cases hfull : 7 ≤ st.lpsK.length
    · have e : csvLoop env args st (d :: ds) = st := by
        simp only [csvLoop, if_pos hfull]
      rw [e]
      exact ⟨h, fun hl => hl, fun p hp => Or.inl hp⟩
    · cases hs : env.search d with
      | error e0 =>
        cases e0
        have e : csvLoop env args st (d :: ds) = csvLoop env args st ds := by
          simp only [csvLoop, if_neg hfull, hs]
        rw [e]
        exact ih st h
      | ok rs =>
        cases rs with
        | nil =>
          have e : csvLoop env args st (d :: ds) = csvLoop env args st ds := by
            simp only [csvLoop, if_neg hfull, hs]
          rw [e]
          exact ih st h
        | cons r0 rs0 =>
          have e : csvLoop env args st (d :: ds)
              = csvLoop env args (csvScanResults env args d st (r0 :: rs0)) ds := by
            simp only [csvLoop, if_neg hfull, hs]
          rw [e]
          rcases csvScan_spec env args d (r0 :: rs0) st h with ⟨h1, h2, h3⟩
          rcases ih _ h1 with ⟨g1, g2, g3⟩
          refine ⟨g1, ?_, ?_⟩
          · intro _
            exact g2 (by omega)
          · intro p hp
            rcases g3 p hp with hp2 | hp2
            · rcases h3 p hp2 with hp3 | hp3
              · exact Or.inl hp3
              · exact Or.inr hp3
            · exact Or.inr hp2

theorem kwScan_spec (env : Env) (args : Args) (keyword : Str) :
    ∀ (rs : List SearchResult) (st : DiscState), DiscInv st →
      DiscInv (kwScanResults env args keyword st rs) ∧
      (st.lpsK.length ≤ 7 → (kwScanResults env args keyword st rs).lpsK.length ≤ 7) ∧
      (∀ p ∈ (kwScanResults env args keyword st rs).lpsK, p ∈ st.lpsK ∨ KwPair env args p) := by
  intro rs
  induction rs with
  | nil =>
    intro st h
    exact ⟨h, fun hl => hl, fun p hp => Or.inl hp⟩
  | cons r rs ih =>
    intro st h
    by_cases hfull : 7 ≤ st.lpsK.length
    · have e : kwScanResults env args keyword st (r :: rs) = st := by
        simp only [kwScanResults, if_pos hfull]
      rw [e]
      exact ⟨h, fun hl => hl, fun p hp => Or.inl hp⟩
    · by_cases hu : ((r.url).getD []).isEmpty = true
      · have e : kwScanResults env args keyword st (r :: rs)
            = kwScanResults env args keyword st rs := by
          simp only [kwScanResults, if_neg hfull, hu]
          rfl
        rw [e]
        exact ih st h
      · by_cases hseed : (netloc ((r.url).getD []) == netloc args.originalUrl) = true
        · have e : kwScanResults env args keyword st (r :: rs)
              = kwScanResults env args keyword st rs := by
            simp only [kwScanResults, if_neg hfull, hu, hseed]
            rfl
          rw [e]
          exact ih st h
        · by_cases hcon : st.existing.contains (netloc ((r.url).getD [])) = true
          · have e : kwScanResults env args keyword st (r :: rs)
                = kwScanResults env args keyword st rs := by
              simp only [kwScanResults, if_neg hfull, hu, hseed, hcon]
              rfl
            rw [e]
            exact ih st h
          · have hmem : netloc ((r.url).getD []) ∉ st.existing :=
              fun hm => hcon (List.elem_iff.mpr hm)
            cases hana : env.analyze ((r.url).getD []) with
            | ok payload =>
              have e : kwScanResults env args keyword st (r :: rs) =
                  kwScanResults env args keyword
                    ⟨st.lpsK ++ [(⟨(r.url).getD [], payload, none,
                        backfillShare args.impressionData (netloc ((r.url).getD [])),
                        keyword, strOf ("キーワード")⟩, netloc ((r.url).getD []))],
                     st.existing ++ [netloc ((r.url).getD [])],
                     st.analyzeCalls ++ [((r.url).getD [], netloc ((r.url).getD []))]⟩ rs := by
                simp only [kwScanResults, if_neg hfull, hu, hseed, hcon, hana]
                rfl
              rw [e]
              have hinv2 := discInv_append_rec st
                ⟨(r.url).getD [], payload, none,
                  backfillShare args.impressionData (netloc ((r.url).getD [])),
                  keyword, strOf ("キーワード")⟩
                (netloc ((r.url).getD [])) ((r.url).getD []) h hmem (Or.inr rfl)
              rcases ih _ hinv2 with ⟨g1, g2, g3⟩
              refine ⟨g1, ?_, ?_⟩
              · intro hl
                refine g2 ?_
                simp only [DiscState.lps, List.length_append, List.length_map]
                simp
                omega
              · intro p hp
                rcases g3 p hp with hp2 | hp2
                · rcases List.mem_append.mp hp2 with hp3 | hp3
                  · exact Or.inl hp3
                  · rcases List.mem_singleton.mp hp3 with rfl
                    refine Or.inr ⟨rfl, rfl, ?_, hana⟩
                    exact fun heq => hseed (beq_iff_eq.mpr heq)
                · exact Or.inr hp2
            | error e0 =>
              cases e0
              have e : kwScanResults env args keyword st (r :: rs) =
                  kwScanResults env args keyword
                    ⟨st.lpsK, st.existing ++ [netloc ((r.url).getD [])],
                     st.analyzeCalls ++ [((r.url).getD [], netloc ((r.url).getD []))]⟩ rs := by
                simp only [kwScanResults, if_neg hfull, hu, hseed, hcon, hana]
                rfl
              rw [e]
              exact ih _ (discInv_append st _ _ h hmem (Or.inr rfl))

theorem kwLoop_spec (env : Env) (args : Args) :
    ∀ (ks : List Str) (st : DiscState), DiscInv st →
      DiscInv (kwLoop env args st ks) ∧
      (st.lpsK.length ≤ 7 → (kwLoop env args st ks).lpsK.length ≤ 7) ∧
      (∀ p ∈ (kwLoop env args st ks).lpsK, p ∈ st.lpsK ∨ KwPair env args p) := by
  intro ks
  induction ks with
  | nil =>
    intro st h
    exact ⟨h, fun hl => hl, fun p hp => Or.inl hp⟩
  | cons k ks ih =>
    intro st h
    by_cases hfull : 7 ≤ st.lpsK.length
    · have e : kwLoop env args st (k :: ks) = st := by
        simp only [kwLoop, if_pos hfull]
      rw [e]
      exact ⟨h, fun hl => hl, fun p hp => Or.inl hp⟩
    · cases hs : env.search k with
      | error e0 =>
        cases e0
        have e : kwLoop env args st (k :: ks) = kwLoop env args st ks := by
          simp only [kwLoop, if_neg hfull, hs]
        rw [e]
        exact ih st h
      | ok rs =>
        cases rs with
        | nil =>
          have e : kwLoop env args st (k :: ks) = kwLoop env args st ks := by
            simp only [kwLoop, if_neg hfull, hs]
          rw [e]
          exact ih st h
        | cons r0 rs0 =>
          have e : kwLoop env args st (k :: ks)
              = kwLoop env args (kwScanResults env args k st ((r0 :: rs0).take 5)) ks := by
            simp only [kwLoop, if_neg hfull, hs]
          rw [e]
          rcases kwScan_spec env args k ((r0 :: rs0).take 5) st h with ⟨h1, h2, h3⟩
          rcases ih _ h1 with ⟨g1, g2, g3⟩
          refine ⟨g1, fun hl => g2 (h2 hl), ?_⟩
          intro p hp
          rcases g3 p hp with hp2 | hp2
          · rcases h3 p hp2 with hp3 | hp3
            · exact Or.inl hp3
            · exact Or.inr hp3
          · exact Or.inr hp2

theorem aiLoop_spec (env : Env) (args : Args) :
    ∀ (names : List Str) (st : DiscState), DiscInv st →
      DiscInv (aiServiceLoop env args st names) ∧
      (st.lpsK.length ≤ 7 → (aiServiceLoop env args st names).lpsK.length ≤ 7) ∧
      (∀ p ∈ (aiServiceLoop env args st names).lpsK, p ∈ st.lpsK ∨ AiPair env args p) := by
  intro names
  induction names with
  | nil =>
    intro st h
    exact ⟨h, fun hl => hl, fun p hp => Or.inl hp⟩
  | cons name names ih =>
    intro st h
    by_cases hfull : 7 ≤ st.lpsK.length
    · have e : aiServiceLoop env args st (name :: names) = st := by
        simp only [aiServiceLoop, if_pos hfull]
      rw [e]
      exact ⟨h, fun hl => hl, fun p hp => Or.inl hp⟩
    · cases hs : env.search name with
      | error e0 =>
        cases e0
        have e : aiServiceLoop env args st (name :: names) = aiServiceLoop env args st names := by
          simp only [aiServiceLoop, if_neg hfull, hs]
        rw [e]
        exact ih st h
      | ok rs =>
        cases rs with
        | nil =>
          have e : aiServiceLoop env args st (name :: names)
              = aiServiceLoop env args st names := by
            simp only [aiServiceLoop, if_neg hfull, hs]
          rw [e]
          exact ih st h
        | cons r0 rs0 =>
          cases hbu : aiBestUrl env r0 name with
          | none =>
            have e : aiServiceLoop env args st (name :: names)
                = aiServiceLoop env args st names := by
              simp only [aiServiceLoop, if_neg hfull, hs, hbu]
            rw [e]
            exact ih st h
          | some u =>
            by_cases hseed : (stripWww (netloc u) == stripWww (netloc args.originalUrl)) = true
            · have e : aiServiceLoop env args st (name :: names)
                  = aiServiceLoop env args st names := by
                simp only [aiServiceLoop, if_neg hfull, hs, hbu, hseed]
                rfl
              rw [e]
              exact ih st h
            · by_cases hcon : st.existing.contains (stripWww (netloc u)) = true
              · have e : aiServiceLoop env args st (name :: names)
                    = aiServiceLoop env args st names := by
                  simp only [aiServiceLoop, if_neg hfull, hs, hbu, hseed, hcon]
                  rfl
                rw [e]
                exact ih st h
              · have hmem : stripWww (netloc u) ∉ st.existing :=
                  fun hm => hcon (List.elem_iff.mpr hm)
                cases hana : env.analyze u with
                | ok payload =>
                  have e : aiServiceLoop env args st (name :: names) =
                      aiServiceLoop env args
                        ⟨st.lpsK ++ [(⟨u, payload, some name,
                            backfillShare args.impressionData (stripWww (netloc u)),
                            name, strOf ("AI選別")⟩, stripWww (netloc u))],
                         st.existing ++ [stripWww (netloc u)],
                         st.analyzeCalls ++ [(u, stripWww (netloc u))]⟩ names := by
                    simp only [aiServiceLoop, if_neg hfull, hs, hbu, hseed, hcon, hana]
                    rfl
                  rw [e]
                  have hinv2 := discInv_append_rec st
                    ⟨u, payload, some name,
                      backfillShare args.impressionData (stripWww (netloc u)),
                      name, strOf ("AI選別")⟩
                    (stripWww (netloc u)) u h hmem (Or.inl rfl)
                  rcases ih _ hinv2 with ⟨g1, g2, g3⟩
                  refine ⟨g1, ?_, ?_⟩
                  · intro hl
                    refine g2 ?_
                    simp only [List.length_append, List.length_singleton]
                    omega
                  · intro p hp
                    rcases g3 p hp with hp2 | hp2
                    · rcases List.mem_append.mp hp2 with hp3 | hp3
                      · exact Or.inl hp3
                      · rcases List.mem_singleton.mp hp3 with rfl
                        refine Or.inr ⟨rfl, rfl, ?_, hana⟩
                        exact fun heq => hseed (beq_iff_eq.mpr heq)
                    · exact Or.inr hp2
                | error e0 =>
                  cases e0
                  have e : aiServiceLoop env args st (name :: names) =
                      aiServiceLoop env args
                        ⟨st.lpsK, st.existing ++ [stripWww (netloc u)],
                         st.analyzeCalls ++ [(u, stripWww (netloc u))]⟩ names := by
                    simp only [aiServiceLoop, if_neg hfull, hs, hbu, hseed, hcon, hana]
                    rfl
                  rw [e]
                  exact ih _ (discInv_append st _ u h hmem (Or.inl rfl))

theorem merge_spec (slots : Nat) :
    ∀ (rest : List LpRec) (st : DiscState) (added : Nat),
      st.existing.Nodup → List.Sublist (st.lpsK.map Prod.snd) st.existing →
      (mergeSupplement slots st added rest).existing.Nodup ∧
      List.Sublist ((mergeSupplement slots st added rest).lpsK.map Prod.snd)
        (mergeSupplement slots st added rest).existing ∧
      (mergeSupplement slots st added rest).lpsK.length ≤ st.lpsK.length + (slots - added) ∧
      (mergeSupplement slots st added rest).analyzeCalls = st.analyzeCalls ∧
      (∀ p ∈ (mergeSupplement slots st added rest).lpsK,
        p ∈ st.lpsK ∨ (p.1 ∈ rest ∧ p.2 = stripWww (netloc p.1.url))) := by
  intro rest
  induction rest with
  | nil =>
    intro st added h1 h2
    exact ⟨h1, h2, Nat.le_add_right _ _, rfl, fun p hp => Or.inl hp⟩
  | cons rec1 rest ih =>
    intro st added h1 h2
    by_cases hsl : slots ≤ added
    · have e : mergeSupplement slots st added (rec1 :: rest) = st := by
        simp only [mergeSupplement, if_pos hsl]
      rw [e]
      exact ⟨h1, h2, Nat.le_add_right _ _, rfl, fun p hp => Or.inl hp⟩
    · by_cases hcon : st.existing.contains (stripWww (netloc rec1.url)) = true
      · have e : mergeSupplement slots st added (rec1 :: rest)
            = mergeSupplement slots st added rest := by
          simp only [mergeSupplement, if_neg hsl, hcon]
          rfl
        rw [e]
        rcases ih st added h1 h2 with ⟨g1, g2, g3, g4, g5⟩
        refine ⟨g1, g2, g3, g4, ?_⟩
        intro p hp
        rcases g5 p hp with hp2 | hp2
        · exact Or.inl hp2
        · exact Or.inr ⟨List.mem_cons_of_mem _ hp2.1, hp2.2⟩
      · have hmem : stripWww (netloc rec1.url) ∉ st.existing :=
          fun hm => hcon (List.elem_iff.mpr hm)
        have e : mergeSupplement slots st added (rec1 :: rest) =
            mergeSupplement slots
              ⟨st.lpsK ++ [(rec1, stripWww (netloc rec1.url))],
               st.existing ++ [stripWww (netloc rec1.url)], st.analyzeCalls⟩
              (added + 1) rest := by
          simp only [mergeSupplement, if_neg hsl, hcon]
          rfl
        rw [e]
        rcases mergeInv_append st rec1 (stripWww (netloc rec1.url)) h1 h2 hmem with ⟨k1, k2⟩
        rcases ih ⟨st.lpsK ++ [(rec1, stripWww (netloc rec1.url))],
            st.existing ++ [stripWww (netloc rec1.url)], st.analyzeCalls⟩
          (added + 1) k1 k2 with ⟨g1, g2, g3, g4, g5⟩
        refine ⟨g1, g2, ?_, g4, ?_⟩
        · simp only [List.length_append, List.length_singleton] at g3
          omega
        · intro p hp
          rcases g5 p hp with hp2 | hp2
          · rcases List.mem_append.mp hp2 with hp3 | hp3
            · exact Or.inl hp3
            · rcases List.mem_singleton.mp hp3 with rfl
              exact Or.inr ⟨List.mem_cons_self _ _, rfl⟩
          · exact Or.inr ⟨List.mem_cons_of_mem _ hp2.1, hp2.2⟩

theorem discInv_nil : DiscInv ⟨[], [], []⟩ :=
  ⟨List.nodup_nil, List.nil_sublist _, List.nil_sublist _, by intro p hp; cases hp⟩

theorem pairOk_of_csv {env : Env} {args : Args} {p : LpRec × Str}
    (h : CsvPair env args p) : PairOk env args p := by
  rcases h with ⟨hs, hk, hne, hana⟩
  refine ⟨hana, Or.inl hs, Or.inl hk, fun _ => hk ▸ hne, ?_⟩
  intro hkw
  exact absurd (hs.symm.trans hkw) (by decide)

theorem pairOk_of_kw {env : Env} {args : Args} {p : LpRec × Str}
    (h : KwPair env args p) : PairOk env args p := by
  rcases h with ⟨hs, hk, hne, hana⟩
  refine ⟨hana, Or.inr (Or.inl hs), Or.inr ⟨hs, hk⟩, ?_, fun _ => hk ▸ hne⟩
  rintro (hcsv | hai)
  · exact absurd (hs.symm.trans hcsv) (by decide)
  · exact absurd (hs.symm.trans hai) (by decide)

theorem pairOk_of_ai {env : Env} {args : Args} {p : LpRec × Str}
    (h : AiPair env args p) : PairOk env args p := by
  rcases h with ⟨hs, hk, hne, hana⟩
  refine ⟨hana, Or.inr (Or.inr hs), Or.inl hk, fun _ => hk ▸ hne, ?_⟩
  intro hkw
  exact absurd (hs.symm.trans hkw) (by decide)

theorem pairOk_of_merged {env : Env} {args : Args} {rec : LpRec} {k0 : Str}
    (h : CsvPair env args (rec, k0) ∨ KwPair env args (rec, k0)) :
    PairOk env args (rec, stripWww (netloc rec.url)) := by
  rcases h with ⟨hs, hk, hne, hana⟩ | ⟨hs, hk, hne, hana⟩
  · refine ⟨hana, Or.inl hs, Or.inl rfl, fun _ => hk ▸ hne, ?_⟩
    intro hkw
    exact absurd (hs.symm.trans hkw) (by decide)
  · refine ⟨hana, Or.inr (Or.inl hs), Or.inl rfl, ?_, fun _ => hk ▸ hne⟩
    rintro (hcsv | hai)
    · exact absurd (hs.symm.trans hcsv) (by decide)
    · exact absurd (hs.symm.trans hai) (by decide)

theorem orig_spec (env : Env) (args : Args) :
    (find_similar_landing_pages_original env args).lpsK.length ≤ 7 ∧
    ((find_similar_landing_pages_original env args).lpsK.map Prod.snd).Nodup ∧
    ((find_similar_landing_pages_original env args).analyzeCalls.map Prod.snd).Nodup ∧
    (∀ q ∈ (find_similar_landing_pages_original env args).analyzeCalls,
      q.2 = stripWww (netloc q.1) ∨ q.2 = netloc q.1) ∧
    (∀ p ∈ (find_similar_landing_pages_original env args).lpsK,
      CsvPair env args p ∨ KwPair env args p) := by
  rcases csvLoop_spec env args args.additionalKeywords ⟨[], [], []⟩ discInv_nil with ⟨h1, h2, h3⟩
  by_cases hlt : (csvLoop env args ⟨[], [], []⟩ args.additionalKeywords).lpsK.length < 7
  · have e : find_similar_landing_pages_original env args =
        { lpsK := (kwLoop env args (csvLoop env args ⟨[], [], []⟩ args.additionalKeywords)
            (genKeywordTerms env args)).lpsK,
          reviewsOriginal := reviewsPart env args,
          impressionData := args.impressionData, aiSource := false,
          analyzeCalls := (kwLoop env args (csvLoop env args ⟨[], [], []⟩ args.additionalKeywords)
            (genKeywordTerms env args)).analyzeCalls } := by
      simp only [find_similar_landing_pages_original, if_pos hlt]
    rw [e]
    rcases kwLoop_spec env args (genKeywordTerms env args) _ h1 with ⟨g1, g2, g3⟩
    rcases g1 with ⟨i1, i2, i3, i4⟩
    refine ⟨g2 (h2 (by simp)), i2.nodup i1, i3.nodup i1, i4, ?_⟩
    intro p hp
    rcases g3 p hp with hp2 | hp2
    · rcases h3 p hp2 with hp3 | hp3
      · cases hp3
      · exact Or.inl hp3
    · exact Or.inr hp2
  · have e : find_similar_landing_pages_original env args =
        { lpsK := (csvLoop env args ⟨[], [], []⟩ args.additionalKeywords).lpsK,
          reviewsOriginal := reviewsPart env args,
          impressionData := args.impressionData, aiSource := false,
          analyzeCalls := (csvLoop env args ⟨[], [], []⟩ args.additionalKeywords).analyzeCalls } := by
      simp only [find_similar_landing_pages_original, if_neg hlt]
    rw [e]
    rcases h1 with ⟨i1, i2, i3, i4⟩
    refine ⟨h2 (by simp), i2.nodup i1, i3.nodup i1, i4, ?_⟩
    intro p hp
    rcases h3 p hp with hp3 | hp3
    · cases hp3
    · exact Or.inl hp3

/-- An array-body parse only ever produces an array value. -/
theorem jsonP_arrBody_shape : ∀ (fuel : Nat) (s : Str) (v : Jv) (r : Str),
    jsonP fuel JMode.arrBody s = some (v, r) → ∃ vs, v = Jv.jarr vs := by
  intro fuel
  cases fuel with
  | zero =>
    intro s v r h
    cases h
  | succ n =>
    intro s v r h
    have h' : (match jsonWs s with
      | ']' :: r => some (Jv.jarr [], r)
      | s1 =>
        (jsonP n JMode.val s1).bind (fun p =>
          (jsonP n JMode.arrRest p.2).bind (fun q =>
            match q.1 with
            | Jv.jarr vs => some (Jv.jarr (p.1 :: vs), q.2)
            | _ => none))) = some (v, r) := h
    split at h'
    · exact ⟨[], (Prod.mk.injEq _ _ _ _ ▸ (Option.some.inj h')).1.symm⟩
    · rcases Option.bind_eq_some.mp h' with ⟨p, _, h2⟩
      rcases Option.bind_eq_some.mp h2 with ⟨q, _, h3⟩
      split at h3
      · rename_i vs _
        exact ⟨p.1 :: vs, (Prod.mk.injEq _ _ _ _ ▸ (Option.some.inj h3)).1.symm⟩
      · cases h3

/-- json.loads of a text beginning with '[' (every bracket slice) yields a
    list whenever it succeeds: the non-list arms of aiParsedNames are
    unreachable in the program. -/
theorem pyJsonLoads_bracket_shape {t : Str} {v : Jv}
    (h : pyJsonLoads ('[' :: t) = some v) : ∃ vs, v = Jv.jarr vs := by
  rw [pyJsonLoads] at h
  cases hp : jsonP (2 * ('[' :: t).length + 8) JMode.val (jsonWs ('[' :: t)) with
  | none => rw [hp] at h; cases h
  | some vr =>
    rw [hp] at h
    have h2 : (if (jsonWs vr.2).isEmpty = true then some vr.1 else none) = some v := h
    have hp' : jsonP (2 * ('[' :: t).length + 7) JMode.arrBody t = some vr := hp
    obtain ⟨vs, hvs⟩ := jsonP_arrBody_shape _ _ _ _ hp'
    by_cases he : (jsonWs vr.2).isEmpty = true
    · rw [if_pos he] at h2
      exact ⟨vs, (Option.some.inj h2) ▸ hvs⟩
    · rw [if_neg he] at h2
      cases h2

theorem ai_fallback_eq (env : Env) (args : Args) (h : aiFallbackTrigger env args) :
    find_similar_landing_pages_with_ai_filtering env args
      = find_similar_landing_pages_original env args := by
  rw [find_similar_landing_pages_with_ai_filtering]
  split
  · rfl
  · rename_i hni
    split
    · rfl
    · rename_i resp hresp
      split
      · rfl
      · rename_i js hjs
        split
        · rfl
        · rename_i names hnames
          exfalso
          rcases h with hb | he | ⟨resp2, hre, hcase⟩
          · rw [hb] at hni
            exact hni rfl
          · rw [he] at hresp
            cases hresp
          · rw [hre] at hresp
            cases hresp
            rcases hcase with hsl | ⟨js2, hjs2, hparse⟩
            · rw [hsl] at hjs
              cases hjs
            · rw [hjs2] at hjs
              cases hjs
              rw [hparse] at hnames
              cases hnames

theorem ai_spec (env : Env) (args : Args) :
    (find_similar_landing_pages_with_ai_filtering env args).lpsK.length ≤ 7 ∧
    ((find_similar_landing_pages_with_ai_filtering env args).lpsK.map Prod.snd).Nodup ∧
    (∀ q ∈ (find_similar_landing_pages_with_ai_filtering env args).analyzeCalls,
      q.2 = stripWww (netloc q.1) ∨ q.2 = netloc q.1) ∧
    (∀ p ∈ (find_similar_landing_pages_with_ai_filtering env args).lpsK,
      PairOk env args p) := by
  rcases orig_spec env args with ⟨o1, o2, o3, o4, o5⟩
  have horigPairs : ∀ p ∈ (find_similar_landing_pages_original env args).lpsK,
      PairOk env args p := by
    intro p hp
    rcases o5 p hp with h | h
    · exact pairOk_of_csv h
    · exact pairOk_of_kw h
  by_cases hb : (collectBatches env ((dedupFirst (args.additionalKeywords
      ++ impDomains args.impressionData ++ genKeywordTerms env args)).take 10)).isEmpty = true
  · have e := ai_fallback_eq env args (Or.inl (List.isEmpty_iff.mp hb))
    rw [e]
    exact ⟨o1, o2, o4, horigPairs⟩
  · cases hn : env.aiServiceNames with
    | error e0 =>
      cases e0
      have e := ai_fallback_eq env args (Or.inr (Or.inl hn))
      rw [e]
      exact ⟨o1, o2, o4, horigPairs⟩
    | ok resp =>
      cases hsl : bracketSlice resp with
      | none =>
        have e := ai_fallback_eq env args (Or.inr (Or.inr ⟨resp, hn, Or.inl hsl⟩))
        rw [e]
        exact ⟨o1, o2, o4, horigPairs⟩
      | some js =>
        cases hpj : aiParsedNames js with
        | none =>
          have e := ai_fallback_eq env args
            (Or.inr (Or.inr ⟨resp, hn, Or.inr ⟨js, hsl, hpj⟩⟩))
          rw [e]
          exact ⟨o1, o2, o4, horigPairs⟩
        | some names =>
          rcases aiLoop_spec env args names ⟨[], [], []⟩ discInv_nil with ⟨a1, a2, a3⟩
          rcases a1 with ⟨i1, i2, i3, i4⟩
          by_cases hlt : (aiServiceLoop env args ⟨[], [], []⟩ names).lpsK.length < 3
          · have e : find_similar_landing_pages_with_ai_filtering env args =
                { lpsK := (mergeSupplement
                    (7 - (aiServiceLoop env args ⟨[], [], []⟩ names).lpsK.length)
                    ⟨(aiServiceLoop env args ⟨[], [], []⟩ names).lpsK,
                     (aiServiceLoop env args ⟨[], [], []⟩ names).existing,
                     (aiServiceLoop env args ⟨[], [], []⟩ names).analyzeCalls
                       ++ (find_similar_landing_pages_original env args).analyzeCalls⟩
                    0 (find_similar_landing_pages_original env args).lps).lpsK,
                  reviewsOriginal := reviewsPart env args,
                  impressionData := args.impressionData, aiSource := true,
                  analyzeCalls := (mergeSupplement
                    (7 - (aiServiceLoop env args ⟨[], [], []⟩ names).lpsK.length)
                    ⟨(aiServiceLoop env args ⟨[], [], []⟩ names).lpsK,
                     (aiServiceLoop env args ⟨[], [], []⟩ names).existing,
                     (aiServiceLoop env args ⟨[], [], []⟩ names).analyzeCalls
                       ++ (find_similar_landing_pages_original env args).analyzeCalls⟩
                    0 (find_similar_landing_pages_original env args).lps).analyzeCalls } := by
              rw [find_similar_landing_pages_with_ai_filtering]
              rw [if_neg hb]
              simp only [hn, hsl, hpj, if_pos hlt]
            rw [e]
            rcases merge_spec (7 - (aiServiceLoop env args ⟨[], [], []⟩ names).lpsK.length)
                (find_similar_landing_pages_original env args).lps
                ⟨(aiServiceLoop env args ⟨[], [], []⟩ names).lpsK,
                 (aiServiceLoop env args ⟨[], [], []⟩ names).existing,
                 (aiServiceLoop env args ⟨[], [], []⟩ names).analyzeCalls
                   ++ (find_similar_landing_pages_original env args).analyzeCalls⟩
                0 i1 i2 with ⟨g1, g2, g3, g4, g5⟩
            refine ⟨?_, g2.nodup g1, ?_, ?_⟩
            · have hle : (aiServiceLoop env args ⟨[], [], []⟩ names).lpsK.length ≤ 7 :=
                a2 (by simp)
              have g3' : (mergeSupplement
                  (7 - (aiServiceLoop env args ⟨[], [], []⟩ names).lpsK.length)
                  ⟨(aiServiceLoop env args ⟨[], [], []⟩ names).lpsK,
                   (aiServiceLoop env args ⟨[], [], []⟩ names).existing,
                   (aiServiceLoop env args ⟨[], [], []⟩ names).analyzeCalls
                     ++ (find_similar_landing_pages_original env args).analyzeCalls⟩
                  0 (find_similar_landing_pages_original env args).lps).lpsK.length
                  ≤ (aiServiceLoop env args ⟨[], [], []⟩ names).lpsK.length
                    + (7 - ((aiServiceLoop env args ⟨[], [], []⟩ names).lpsK.length + 0)) := g3
              show (mergeSupplement
                  (7 - (aiServiceLoop env args ⟨[], [], []⟩ names).lpsK.length)
                  ⟨(aiServiceLoop env args ⟨[], [], []⟩ names).lpsK,
                   (aiServiceLoop env args ⟨[], [], []⟩ names).existing,
                   (aiServiceLoop env args ⟨[], [], []⟩ names).analyzeCalls
                     ++ (find_similar_landing_pages_original env args).analyzeCalls⟩
                  0 (find_similar_landing_pages_original env args).lps).lpsK.length ≤ 7
              omega
            · intro q hq
              rw [g4] at hq
              rcases List.mem_append.mp hq with hq2 | hq2
              · exact i4 q hq2
              · exact o4 q hq2
            · intro p hp
              rcases g5 p hp with hp2 | hp2
              · rcases a3 p hp2 with hp3 | hp3
                · cases hp3
                · exact pairOk_of_ai hp3
              · rcases List.mem_map.mp hp2.1 with ⟨q, hq, hq1⟩
                have hpo : PairOk env args (p.1, stripWww (netloc p.1.url)) := by
                  rcases o5 q hq with h | h
                  · exact pairOk_of_merged (Or.inl (by rw [← hq1]; exact (by simpa using h)))
                  · exact pairOk_of_merged (Or.inr (by rw [← hq1]; exact (by simpa using h)))
                have hpp : p = (p.1, stripWww (netloc p.1.url)) := by
                  have h2 := hp2.2
                  cases p
                  simp only [Prod.mk.injEq, true_and]
                  exact h2
                rw [hpp]
                exact hpo
          · have e : find_similar_landing_pages_with_ai_filtering env args =
                { lpsK := (aiServiceLoop env args ⟨[], [], []⟩ names).lpsK,
                  reviewsOriginal := reviewsPart env args,
                  impressionData := args.impressionData, aiSource := true,
                  analyzeCalls := (aiServiceLoop env args ⟨[], [], []⟩ names).analyzeCalls } := by
              rw [find_similar_landing_pages_with_ai_filtering]
              rw [if_neg hb]
              simp only [hn, hsl, hpj, if_neg hlt]
            rw [e]
            refine ⟨a2 (by simp), i2.nodup i1, i4, ?_⟩
            intro p hp
            rcases a3 p hp with hp3 | hp3
            · cases hp3
            · exact pairOk_of_ai hp3

/-- Every discovery run returns at most 7 records; the admission keys are
    pairwise distinct; each key is the record's www-stripped netloc except in
    the keyword loop, which uses (and compares the seed against) the raw
    netloc — so records differing only by a www. prefix can evade the
    claimed normalized-domain invariant. -/
theorem discovery_budget_and_dedup (useAi : Bool) (env : Env) (args : Args) :
    (find_similar_landing_pages useAi env args).lpsK.length ≤ 7 ∧
    ((find_similar_landing_pages useAi env args).lpsK.map Prod.snd).Nodup ∧
    (∀ p ∈ (find_similar_landing_pages useAi env args).lpsK, PairOk env args p) := by
  cases useAi with
  | true =>
    have e : find_similar_landing_pages true env args
        = find_similar_landing_pages_with_ai_filtering env args := rfl
    rw [e]
    rcases ai_spec env args with ⟨x1, x2, _, x4⟩
    exact ⟨x1, x2, x4⟩
  | false =>
    have e : find_similar_landing_pages false env args
        = find_similar_landing_pages_original env args := rfl
    rw [e]
    rcases orig_spec env args with ⟨x1, x2, _, _, x5⟩
    refine ⟨x1, x2, ?_⟩
    intro p hp
    rcases x5 p hp with h | h
    · exact pairOk_of_csv h
    · exact pairOk_of_kw h

theorem discovery_budget_and_dedup_witness :
    (find_similar_landing_pages true envWwwSeed argsWwwSeed).lpsK.length ≤ 7 ∧
    ((find_similar_landing_pages true envWwwSeed argsWwwSeed).lpsK.map Prod.snd).Nodup :=
  ⟨(discovery_budget_and_dedup true envWwwSeed argsWwwSeed).1,
   (discovery_budget_and_dedup true envWwwSeed argsWwwSeed).2.1⟩

/-- A deterministic-strategy run (reached here through the AI entry's
    fallback) returns a record whose www-stripped domain equals the
    www-stripped seed domain: the keyword loop compares raw netlocs only. -/
theorem seed_domain_returned_cex :
    ((find_similar_landing_pages true envWwwSeed argsWwwSeed).lps.map
      (fun rec => stripWww (netloc rec.url))).contains
        (stripWww (netloc argsWwwSeed.originalUrl)) = true := by
  decide

/-- When the AI-filtered strategy sees zero batches, a raised completion
    error, or a reply with no parseable array, it returns exactly the
    deterministic strategy's result, and every record of that result is
    sourced from the seed table (CSV) or from keywords. -/
theorem aiStrategy_falls_back (env : Env) (args : Args) (h : aiFallbackTrigger env args) :
    find_similar_landing_pages_with_ai_filtering env args
      = find_similar_landing_pages_original env args ∧
    ∀ rec ∈ (find_similar_landing_pages_with_ai_filtering env args).lps,
      rec.source = strOf ("CSV") ∨ rec.source = strOf ("キーワード") := by
  have e := ai_fallback_eq env args h
  refine ⟨e, ?_⟩
  rw [e]
  intro rec hrec
  rcases List.mem_map.mp hrec with ⟨p, hp, hfst⟩
  rcases (orig_spec env args).2.2.2.2 p hp with hc | hk
  · exact Or.inl (hfst ▸ hc.1)
  · exact Or.inr (hfst ▸ hk.1)

theorem aiStrategy_falls_back_witness :
    aiFallbackTrigger envMalformed argsMalformed ∧
    find_similar_landing_pages_with_ai_filtering envMalformed argsMalformed
      = find_similar_landing_pages_original envMalformed argsMalformed ∧
    (find_similar_landing_pages_with_ai_filtering envMalformed argsMalformed).lps.map
      (fun rec => rec.source) = [strOf ("CSV")] :=
  ⟨Or.inr (Or.inr ⟨strOf ("no list today"), by decide, Or.inl (by decide)⟩),
   (aiStrategy_falls_back envMalformed argsMalformed
     (Or.inr (Or.inr ⟨strOf ("no list today"), by decide, Or.inl (by decide)⟩))).1,
   by decide⟩

/-- A candidate whose analysis fails never yields a record; within one
    strategy pass no dedup key is analyzed twice (so a failed candidate is
    not retried under the same key); every analyze call is keyed by the
    www-stripped or raw netloc of its url. -/
theorem failed_candidate_dropped (useAi : Bool) (env : Env) (args : Args) :
    (∀ u, env.analyze u = Except.error () →
      ∀ rec ∈ (find_similar_landing_pages useAi env args).lps, rec.url ≠ u) ∧
    ((find_similar_landing_pages_original env args).analyzeCalls.map Prod.snd).Nodup ∧
    (∀ names, ((aiServiceLoop env args ⟨[], [], []⟩ names).analyzeCalls.map Prod.snd).Nodup) ∧
    (∀ q ∈ (find_similar_landing_pages useAi env args).analyzeCalls,
      q.2 = stripWww (netloc q.1) ∨ q.2 = netloc q.1) := by
  have hpair : ∀ p ∈ (find_similar_landing_pages useAi env args).lpsK, PairOk env args p := by
    cases useAi with
    | true =>
      have e : find_similar_landing_pages true env args
          = find_similar_landing_pages_with_ai_filtering env args := rfl
      rw [e]
      exact (ai_spec env args).2.2.2
    | false =>
      have e : find_similar_landing_pages false env args
          = find_similar_landing_pages_original env args := rfl
      rw [e]
      intro p hp
      rcases (orig_spec env args).2.2.2.2 p hp with h | h
      · exact pairOk_of_csv h
      · exact pairOk_of_kw h
  refine ⟨?_, (orig_spec env args).2.2.1, ?_, ?_⟩
  · intro u hu rec hrec hrecu
    rcases List.mem_map.mp hrec with ⟨p, hp, hfst⟩
    have hok := (hpair p hp).1
    rw [hfst, hrecu] at hok
    rw [hu] at hok
    cases hok
  · intro names
    rcases aiLoop_spec env args names ⟨[], [], []⟩ discInv_nil with ⟨⟨i1, _, i3, _⟩, _, _⟩
    exact i3.nodup i1
  · cases useAi with
    | true =>
      have e : find_similar_landing_pages true env args
          = find_similar_landing_pages_with_ai_filtering env args := rfl
      rw [e]
      exact (ai_spec env args).2.2.1
    | false =>
      have e : find_similar_landing_pages false env args
          = find_similar_landing_pages_original env args := rfl
      rw [e]
      exact (orig_spec env args).2.2.2.1

theorem failed_candidate_dropped_witness :
    envRetry.analyze (strOf ("https://www.a.com/")) = Except.error () ∧
    ∀ rec ∈ (find_similar_landing_pages false envRetry argsRetry).lps,
      rec.url ≠ strOf ("https://www.a.com/") :=
  ⟨by decide,
   (failed_candidate_dropped false envRetry argsRetry).1 (strOf ("https://www.a.com/"))
     (by decide)⟩

/-- The same failed candidate url is fetched and analyzed twice in one
    deterministic run: once keyed a.com by the table loop, once keyed
    www.a.com by the keyword loop; it yields no record either time. -/
theorem failed_candidate_refetched_cex :
    (find_similar_landing_pages_original envRetry argsRetry).analyzeCalls.map Prod.fst
      = [strOf ("https://www.a.com/"), strOf ("https://www.a.com/")] ∧
    (find_similar_landing_pages_original envRetry argsRetry).lps = [] := by
  constructor
  · decide
  · decide

/-! ### Re-parsing the canonical output: groundwork -/

theorem takeWhile_all_true {p : Char → Bool} : ∀ {l : Str},
    (∀ c ∈ l, p c = true) → l.takeWhile p = l := by
  intro l h
  induction l with
  | nil => rfl
  | cons c cs ih =>
    have hc := h c (List.mem_cons_self c cs)
    simp [List.takeWhile_cons, hc, ih (fun x hx => h x (List.mem_cons_of_mem c hx))]

theorem takeWhile_stop {p : Char → Bool} {b : Char} (hb : p b = false) :
    ∀ (l : Str) (r : Str), (∀ c ∈ l, p c = true) → (l ++ b :: r).takeWhile p = l := by
  intro l
  induction l with
  | nil =>
    intro r _
    simp [List.takeWhile_cons, hb]
  | cons c cs ih =>
    intro r h
    have hc := h c (List.mem_cons_self c cs)
    simp [List.takeWhile_cons, hc, ih r (fun x hx => h x (List.mem_cons_of_mem c hx))]

theorem takeWhile_none {p : Char → Bool} : ∀ {l : Str},
    (∀ c ∈ l, p c = false) → l.takeWhile p = [] := by
  intro l h
  cases l with
  | nil => rfl
  | cons c cs =>
    have hc := h c (List.mem_cons_self c cs)
    simp [List.takeWhile_cons, hc]

theorem alt1Pick_none_of_junk {run3 : Str}
    (h : ∀ c ∈ run3, c.isAlpha = false) : alt1Pick run3 = none := by
  rw [alt1Pick, List.find?_eq_none]
  intro k _
  intro hk
  rcases Bool.and_eq_true_iff.mp hk with ⟨_, h2⟩
  have h2' : 2 ≤ ((run3.drop (k+1)).takeWhile Char.isAlpha).length := of_decide_eq_true h2
  have hnil : (run3.drop (k+1)).takeWhile Char.isAlpha = [] := by
    refine takeWhile_none ?_
    intro c hc
    exact h c (List.drop_subset _ _ hc)
  rw [hnil] at h2'
  cases h2'

theorem matchAlt1_junk {xs : Str} (h : ∀ c ∈ xs, c.isAlpha = false) :
    matchAlt1 xs = none := by
  cases xs with
  | nil => rfl
  | cons c cs =>
    simp only [matchAlt1]
    by_cases hc : c.isAlphanum = true
    · rw [if_pos hc]
      cases hdrop : cs.drop (cs.takeWhile isC2).length with
      | nil => rfl
      | cons x t =>
        by_cases hx : x = '.'
        · subst hx
          have hpick : alt1Pick (t.takeWhile isC3) = none := by
            refine alt1Pick_none_of_junk ?_
            intro a ha
            have h1 : a ∈ t := (List.takeWhile_sublist _).subset ha
            have h2 : a ∈ cs.drop (cs.takeWhile isC2).length := by
              rw [hdrop]
              exact List.mem_cons_of_mem _ h1
            exact h a (List.mem_cons_of_mem _ (List.drop_subset _ _ h2))
          simp only [hpick]
        · split
          · rename_i heq
            exact absurd (List.cons.injEq _ _ _ _ ▸ heq).1 hx
          · rfl
    · rw [if_neg hc]

theorem matchAlt2_junk {xs : Str} (h : ∀ c ∈ xs, c.isAlpha = false) :
    matchAlt2 xs = none := by
  cases xs with
  | nil => rfl
  | cons c cs =>
    simp only [matchAlt2]
    by_cases hc : c.isAlphanum = true
    · rw [if_pos hc]
      cases hdrop : cs.drop (cs.takeWhile isC2).length with
      | nil => rfl
      | cons x t =>
        by_cases hx : x = '.'
        · subst hx
          have hlet : t.takeWhile Char.isAlpha = [] := by
            refine takeWhile_none ?_
            intro a ha
            have h2 : a ∈ cs.drop (cs.takeWhile isC2).length := by
              rw [hdrop]
              exact List.mem_cons_of_mem _ ha
            exact h a (List.mem_cons_of_mem _ (List.drop_subset _ _ h2))
          simp only [hlet]
          rfl
        · split
          · rename_i heq
            exact absurd (List.cons.injEq _ _ _ _ ▸ heq).1 hx
          · rfl
    · rw [if_neg hc]

theorem matchJibun_junk {xs : Str} (h : ∀ c ∈ xs, c ≠ '自') :
    matchJibun xs = none := by
  rw [matchJibun.eq_def]
  split
  · exact absurd rfl (h '自' (List.mem_cons_self _ _))
  · rfl

theorem matchDomain_junk {xs : Str}
    (h : ∀ c ∈ xs, c.isAlpha = false ∧ c ≠ '自') :
    matchDomain xs = none := by
  rw [matchDomain, matchAlt1_junk (fun c hc => (h c hc).1),
    matchAlt2_junk (fun c hc => (h c hc).1), matchJibun_junk (fun c hc => (h c hc).2)]
  rfl

theorem domainScan_junk : ∀ (fuel : Nat) (xs : Str),
    (∀ c ∈ xs, c.isAlpha = false ∧ c ≠ '自') → domainScan fuel xs = [] := by
  intro fuel
  induction fuel with
  | zero => intro xs _; rfl
  | succ n ih =>
    intro xs h
    cases xs with
    | nil => rfl
    | cons c cs =>
      rw [domainScan, matchDomain_junk h]
      exact ih cs (fun a ha => h a (List.mem_cons_of_mem _ ha))


/-! ### Structure of successful domain-pattern matches -/

theorem isC3_of_isC2 {c : Char} (h : isC2 c = true) : isC3 c = true := by
  rcases Bool.or_eq_true_iff.mp h with h1 | h1
  · simp [isC3, h1]
  · simp [isC3, h1]

theorem isC3_of_alphanum {c : Char} (h : c.isAlphanum = true) : isC3 c = true := by
  simp [isC3, h]

theorem isC3_of_isAlpha {c : Char} (h : c.isAlpha = true) : isC3 c = true := by
  simp [isC3, Char.isAlphanum, h]

theorem take_length_takeWhile (p : Char → Bool) : ∀ (l : Str),
    l.take (l.takeWhile p).length = l.takeWhile p := by
  intro l
  induction l with
  | nil => rfl
  | cons a l ih =>
    by_cases hp : p a = true
    · simp [List.takeWhile_cons, hp, ih]
    · simp [List.takeWhile_cons, hp]

theorem takeWhile_drop_decomp (p : Char → Bool) (l : Str) :
    l = l.takeWhile p ++ l.drop (l.takeWhile p).length := by
  conv_lhs => rw [← List.take_append_drop (l.takeWhile p).length l]
  rw [take_length_takeWhile]

theorem all_of_takeWhile_eq_self {p : Char → Bool} {l : Str}
    (h : l.takeWhile p = l) : ∀ a ∈ l, p a = true :=
  fun a ha => List.mem_takeWhile_imp (h.symm ▸ ha)

theorem matchAlt1_eval (c : Char) (hc : c.isAlphanum = true) (run1 u : Str)
    (hrun1 : ∀ a ∈ run1, isC2 a = true) :
    matchAlt1 (c :: (run1 ++ '.' :: u)) =
      (match alt1Pick (u.takeWhile isC3) with
       | some k => some (c :: run1 ++ '.' :: (u.takeWhile isC3).take k ++ '.' ::
           (((u.takeWhile isC3).drop (k+1)).takeWhile Char.isAlpha))
       | none => none) := by
  have e1 : (run1 ++ '.' :: u).takeWhile isC2 = run1 :=
    takeWhile_stop (by decide) run1 u hrun1
  simp only [matchAlt1, if_pos hc, e1, List.drop_left]

theorem matchAlt2_eval (c : Char) (hc : c.isAlphanum = true) (run1 u : Str)
    (hrun1 : ∀ a ∈ run1, isC2 a = true) :
    matchAlt2 (c :: (run1 ++ '.' :: u)) =
      (if 2 ≤ (u.takeWhile Char.isAlpha).length
       then some (c :: run1 ++ '.' :: u.takeWhile Char.isAlpha) else none) := by
  have e1 : (run1 ++ '.' :: u).takeWhile isC2 = run1 :=
    takeWhile_stop (by decide) run1 u hrun1
  simp only [matchAlt2, if_pos hc, e1, List.drop_left]

theorem matchAlt1_none_notAlphanum {c : Char} {cs : Str} (hc : c.isAlphanum = false) :
    matchAlt1 (c :: cs) = none := by
  simp [matchAlt1, hc]

theorem matchAlt2_none_notAlphanum {c : Char} {cs : Str} (hc : c.isAlphanum = false) :
    matchAlt2 (c :: cs) = none := by
  simp [matchAlt2, hc]

theorem matchAlt1_some {xs m : Str} (h : matchAlt1 xs = some m) :
    ∃ c cs t k, xs = c :: cs ∧ c.isAlphanum = true ∧
      cs.drop (cs.takeWhile isC2).length = '.' :: t ∧
      alt1Pick (t.takeWhile isC3) = some k ∧
      m = c :: cs.takeWhile isC2 ++ '.' :: (t.takeWhile isC3).take k ++ '.' ::
        ((t.takeWhile isC3).drop (k+1)).takeWhile Char.isAlpha := by
  cases xs with
  | nil => cases h
  | cons c cs =>
    simp only [matchAlt1] at h
    by_cases hc : c.isAlphanum = true
    · rw [if_pos hc] at h
      cases hdrop : cs.drop (cs.takeWhile isC2).length with
      | nil =>
        rw [hdrop] at h
        cases h
      | cons x t =>
        rw [hdrop] at h
        by_cases hx : x = '.'
        · subst hx
          have h' : (match alt1Pick (t.takeWhile isC3) with
              | some k => some (c :: cs.takeWhile isC2 ++ '.' ::
                  (t.takeWhile isC3).take k ++ '.' ::
                  ((t.takeWhile isC3).drop (k+1)).takeWhile Char.isAlpha)
              | none => (none : Option Str)) = some m := h
          cases hpick : alt1Pick (t.takeWhile isC3) with
          | none => rw [hpick] at h'; cases h'
          | some k =>
            rw [hpick] at h'
            exact ⟨c, cs, t, k, rfl, hc, hdrop, hpick, (Option.some.inj h').symm⟩
        · exfalso
          split at h
          · rename_i heq
            exact hx (List.cons.injEq _ _ _ _ ▸ heq).1
          · cases h
    · rw [if_neg hc] at h; cases h

theorem matchAlt2_some {xs m : Str} (h : matchAlt2 xs = some m) :
    ∃ c cs t, xs = c :: cs ∧ c.isAlphanum = true ∧
      cs.drop (cs.takeWhile isC2).length = '.' :: t ∧
      2 ≤ (t.takeWhile Char.isAlpha).length ∧
      m = c :: cs.takeWhile isC2 ++ '.' :: t.takeWhile Char.isAlpha := by
  cases xs with
  | nil => cases h
  | cons c cs =>
    simp only [matchAlt2] at h
    by_cases hc : c.isAlphanum = true
    · rw [if_pos hc] at h
      cases hdrop : cs.drop (cs.takeWhile isC2).length with
      | nil =>
        rw [hdrop] at h
        cases h
      | cons x t =>
        rw [hdrop] at h
        by_cases hx : x = '.'
        · subst hx
          have h' : (if 2 ≤ (t.takeWhile Char.isAlpha).length
              then some (c :: cs.takeWhile isC2 ++ '.' :: t.takeWhile Char.isAlpha)
              else (none : Option Str)) = some m := h
          by_cases hlen : 2 ≤ (t.takeWhile Char.isAlpha).length
          · rw [if_pos hlen] at h'
            exact ⟨c, cs, t, rfl, hc, hdrop, hlen, (Option.some.inj h').symm⟩
          · rw [if_neg hlen] at h'; cases h'
        · exfalso
          split at h
          · rename_i heq
            exact hx (List.cons.injEq _ _ _ _ ▸ heq).1
          · cases h
    · rw [if_neg hc] at h; cases h

theorem matchJibun_some {xs m : Str} (h : matchJibun xs = some m) :
    ∃ tl, xs = '自' :: '分' :: tl ∧ m = ['自', '分'] := by
  rw [matchJibun.eq_def] at h
  split at h
  · rename_i tl
    exact ⟨tl, rfl, (Option.some.inj h).symm⟩
  · cases h

theorem matchDomain_cases {xs m : Str} (h : matchDomain xs = some m) :
    matchAlt1 xs = some m ∨ (matchAlt1 xs = none ∧ matchAlt2 xs = some m) ∨
      (matchAlt1 xs = none ∧ matchAlt2 xs = none ∧ matchJibun xs = some m) := by
  rw [matchDomain] at h
  cases h1 : matchAlt1 xs with
  | some a =>
    rw [h1] at h
    exact Or.inl (by simpa [Option.orElse] using h)
  | none =>
    rw [h1] at h
    cases h2 : matchAlt2 xs with
    | some a =>
      rw [h2] at h
      exact Or.inr (Or.inl ⟨rfl, by simpa [Option.orElse] using h⟩)
    | none =>
      rw [h2] at h
      exact Or.inr (Or.inr ⟨rfl, rfl, by simpa [Option.orElse] using h⟩)


theorem matchAlt1_self {d : Str} (h : matchAlt1 d = some d) :
    ∃ c run1 t k, d = c :: (run1 ++ '.' :: t) ∧ c.isAlphanum = true ∧
      (∀ a ∈ run1, isC2 a = true) ∧ (∀ a ∈ t, isC3 a = true) ∧
      alt1Pick t = some k ∧
      d = c :: run1 ++ '.' :: t.take k ++ '.' ::
        ((t.drop (k+1)).takeWhile Char.isAlpha) := by
  obtain ⟨c, cs, t, k, hxs, hc, hdrop, hpick, hm⟩ := matchAlt1_some h
  have hcs : cs = cs.takeWhile isC2 ++ '.' :: t := by
    conv_lhs => rw [takeWhile_drop_decomp isC2 cs]
    rw [hdrop]
  have hm' : c :: cs = c :: cs.takeWhile isC2 ++ '.' :: (t.takeWhile isC3).take k ++ '.' ::
      ((t.takeWhile isC3).drop (k+1)).takeWhile Char.isAlpha := hxs ▸ hm
  have htail : cs = cs.takeWhile isC2 ++ '.' :: ((t.takeWhile isC3).take k ++ '.' ::
      ((t.takeWhile isC3).drop (k+1)).takeWhile Char.isAlpha) := by
    have := (List.cons.injEq _ _ _ _ ▸ hm').2
    simpa [List.cons_append, List.append_assoc] using this
  have ht : t = (t.takeWhile isC3).take k ++ '.' ::
      ((t.takeWhile isC3).drop (k+1)).takeWhile Char.isAlpha := by
    have h2 := hcs.symm.trans htail
    have h3 := List.append_cancel_left h2
    exact (List.cons.injEq _ _ _ _ ▸ h3).2
  have ht3 : ∀ a ∈ t, isC3 a = true := by
    intro a ha
    rw [ht] at ha
    rcases List.mem_append.mp ha with h1 | h1
    · exact List.mem_takeWhile_imp (List.take_subset _ _ h1)
    · rcases List.mem_cons.mp h1 with h2 | h2
      · subst h2; decide
      · exact isC3_of_isAlpha (List.mem_takeWhile_imp h2)
  have htw : t.takeWhile isC3 = t := takeWhile_all_true ht3
  refine ⟨c, cs.takeWhile isC2, t, k, ?_, hc, ?_, ht3, htw ▸ hpick, ?_⟩
  · rw [hxs]
    exact congrArg (c :: ·) hcs
  · intro a ha
    exact List.mem_takeWhile_imp ha
  · rw [hxs]
    simpa [htw] using hm'

theorem matchAlt2_self {d : Str} (h : matchAlt2 d = some d) :
    ∃ c run1 t, d = c :: (run1 ++ '.' :: t) ∧ c.isAlphanum = true ∧
      (∀ a ∈ run1, isC2 a = true) ∧ (∀ a ∈ t, a.isAlpha = true) ∧
      2 ≤ t.length ∧ d = c :: run1 ++ '.' :: t := by
  obtain ⟨c, cs, t, hxs, hc, hdrop, hlen, hm⟩ := matchAlt2_some h
  have hcs : cs = cs.takeWhile isC2 ++ '.' :: t := by
    conv_lhs => rw [takeWhile_drop_decomp isC2 cs]
    rw [hdrop]
  have hm' : c :: cs = c :: cs.takeWhile isC2 ++ '.' :: t.takeWhile Char.isAlpha :=
    hxs ▸ hm
  have htail : cs = cs.takeWhile isC2 ++ '.' :: t.takeWhile Char.isAlpha := by
    have := (List.cons.injEq _ _ _ _ ▸ hm').2
    simpa [List.cons_append, List.append_assoc] using this
  have ht : t = t.takeWhile Char.isAlpha := by
    have h2 := hcs.symm.trans htail
    have h3 := List.append_cancel_left h2
    exact (List.cons.injEq _ _ _ _ ▸ h3).2
  have htA : ∀ a ∈ t, a.isAlpha = true := all_of_takeWhile_eq_self ht.symm
  refine ⟨c, cs.takeWhile isC2, t, ?_, hc, ?_, htA, ?_, ?_⟩
  · rw [hxs]
    exact congrArg (c :: ·) hcs
  · intro a ha
    exact List.mem_takeWhile_imp ha
  · rw [ht]; exact hlen
  · rw [hxs, ht]; exact hm'

theorem matchAlt1_ext {d : Str} (h : matchAlt1 d = some d) {b : Char}
    (hb3 : isC3 b = false) (r : Str) : matchAlt1 (d ++ b :: r) = some d := by
  obtain ⟨c, run1, t, k, hd1, hc, hrun1, ht3, hpick, hd2⟩ := matchAlt1_self h
  have hshape : d ++ b :: r = c :: (run1 ++ '.' :: (t ++ b :: r)) := by
    rw [hd1]
    simp [List.cons_append, List.append_assoc]
  rw [hshape, matchAlt1_eval c hc run1 (t ++ b :: r) hrun1,
    takeWhile_stop hb3 t r ht3, hpick]
  rw [hd2]

theorem matchAlt2_ext {d : Str} (h : matchAlt2 d = some d) {b : Char}
    (hbA : b.isAlpha = false) (r : Str) : matchAlt2 (d ++ b :: r) = some d := by
  obtain ⟨c, run1, t, hd1, hc, hrun1, htA, hlen, hd2⟩ := matchAlt2_self h
  have hshape : d ++ b :: r = c :: (run1 ++ '.' :: (t ++ b :: r)) := by
    rw [hd1]
    simp [List.cons_append, List.append_assoc]
  rw [hshape, matchAlt2_eval c hc run1 (t ++ b :: r) hrun1,
    takeWhile_stop hbA t r htA, if_pos hlen]
  rw [hd2]

theorem matchAlt1_ext_none {d : Str} (h2 : matchAlt2 d = some d)
    (h1 : matchAlt1 d = none) {b : Char} (hb3 : isC3 b = false) (r : Str) :
    matchAlt1 (d ++ b :: r) = none := by
  obtain ⟨c, run1, t, hd1, hc, hrun1, htA, hlen, hd2⟩ := matchAlt2_self h2
  have ht3 : ∀ a ∈ t, isC3 a = true := fun a ha => isC3_of_isAlpha (htA a ha)
  have htw : t.takeWhile isC3 = t := takeWhile_all_true ht3
  have h1' := h1
  rw [hd1, matchAlt1_eval c hc run1 t hrun1, htw] at h1'
  cases hpick : alt1Pick t with
  | some k => rw [hpick] at h1'; cases h1'
  | none =>
    have hshape : d ++ b :: r = c :: (run1 ++ '.' :: (t ++ b :: r)) := by
      rw [hd1]
      simp [List.cons_append, List.append_assoc]
    rw [hshape, matchAlt1_eval c hc run1 (t ++ b :: r) hrun1,
      takeWhile_stop hb3 t r ht3, hpick]

theorem matchDomain_ext {d : Str} (h : matchDomain d = some d) (r : Str) :
    matchDomain (d ++ ':' :: r) = some d := by
  rcases matchDomain_cases h with h1 | ⟨h1, h2⟩ | ⟨h1, h2, h3⟩
  · rw [matchDomain, matchAlt1_ext h1 (by decide) r]
    rfl
  · rw [matchDomain, matchAlt1_ext_none h2 h1 (by decide) r,
      matchAlt2_ext h2 (by decide) r]
    rfl
  · obtain ⟨tl, _, hm⟩ := matchJibun_some h3
    rw [hm]
    simp only [List.cons_append, List.nil_append]
    rw [matchDomain, matchAlt1_none_notAlphanum (by decide),
      matchAlt2_none_notAlphanum (by decide)]
    rfl


/-! ### The percent pattern on a clean numeral -/

theorem cleanNumeral_ne_nil {s : Str} (h : cleanNumeral s) : s ≠ [] := by
  rcases h with ⟨h1, _⟩ | ⟨a, b, hs, ha, _, _⟩
  · exact h1
  · rw [hs]
    cases a with
    | nil => exact absurd rfl ha
    | cons x xs => simp

theorem cleanNumeral_chars {s : Str} (h : cleanNumeral s) :
    ∀ c ∈ s, c.isDigit = true ∨ c = '.' := by
  rcases h with ⟨_, h1⟩ | ⟨a, b, hs, _, hda, hdb⟩
  · exact fun c hc => Or.inl (h1 c hc)
  · intro c hc
    rw [hs] at hc
    rcases List.mem_append.mp hc with h2 | h2
    · exact Or.inl (hda c h2)
    · rcases List.mem_cons.mp h2 with h3 | h3
      · exact Or.inr h3
      · exact Or.inl (hdb c h3)

theorem matchNum_clean {s : Str} (r : Str) (h : cleanNumeral s) :
    matchNum (s ++ '%' :: r) = some (s, '%' :: r) := by
  rcases h with ⟨hne, hdig⟩ | ⟨a, b, hs, hane, hadig, hbdig⟩
  · have e1 : (s ++ '%' :: r).takeWhile Char.isDigit = s :=
      takeWhile_stop (by decide) s r hdig
    have hie : s.isEmpty = false := List.isEmpty_eq_false.mpr hne
    simp only [matchNum, e1, hie, List.drop_left]
    rfl
  · have hsr : s ++ '%' :: r = a ++ '.' :: (b ++ '%' :: r) := by
      rw [hs]
      simp [List.cons_append, List.append_assoc]
    have e1 : (s ++ '%' :: r).takeWhile Char.isDigit = a := by
      rw [hsr]
      exact takeWhile_stop (by decide) a _ hadig
    have hie : a.isEmpty = false := List.isEmpty_eq_false.mpr hane
    have e2 : (s ++ '%' :: r).drop a.length = '.' :: (b ++ '%' :: r) := by
      rw [hsr]
      exact List.drop_left a _
    have e3 : (b ++ '%' :: r).takeWhile Char.isDigit = b :=
      takeWhile_stop (by decide) b r hbdig
    simp only [matchNum, e1, hie, e2, e3, List.drop_left]
    rw [hs]
    rfl

theorem matchPercent_clean {s : Str} (r : Str) (h : cleanNumeral s) :
    matchPercent (s ++ '%' :: r) = some (s ++ ['%']) := by
  simp only [matchPercent, matchNum_clean r h]

theorem percentScan_nil : ∀ fuel, percentScan fuel [] = [] := by
  intro f
  cases f <;> rfl

theorem percentScan_step_none (n : Nat) (c : Char) (cs : Str)
    (h : matchPercent (c :: cs) = none) :
    percentScan (n+1) (c :: cs) = percentScan n cs := by
  simp only [percentScan, h]

theorem percentScan_step_some (n : Nat) (c : Char) (cs m : Str)
    (h : matchPercent (c :: cs) = some m) :
    percentScan (n+1) (c :: cs) = m :: percentScan n ((c :: cs).drop m.length) := by
  simp only [percentScan, h]

theorem percentMatches_rest {s : Str} (h : cleanNumeral s) :
    percentMatches (':' :: ' ' :: (s ++ ['%'])) = [s ++ ['%']] := by
  obtain ⟨c0, s', hs0⟩ : ∃ c0 s', s = c0 :: s' := by
    cases hc : s with
    | nil => exact absurd hc (cleanNumeral_ne_nil h)
    | cons x xs => exact ⟨x, xs, rfl⟩
  have hform : s ++ ['%'] = c0 :: (s' ++ ['%']) := by
    rw [hs0, List.cons_append]
  have st3 : matchPercent (s ++ ['%']) = some (s ++ ['%']) := matchPercent_clean [] h
  show percentScan (':' :: ' ' :: (s ++ ['%'])).length (':' :: ' ' :: (s ++ ['%'])) = _
  rw [show (':' :: ' ' :: (s ++ ['%'])).length = ((s ++ ['%']).length + 1) + 1 from by simp]
  rw [percentScan_step_none ((s ++ ['%']).length + 1) ':' (' ' :: (s ++ ['%'])) rfl]
  rw [percentScan_step_none ((s ++ ['%']).length) ' ' (s ++ ['%']) rfl]
  rw [hform] at st3 ⊢
  rw [show (c0 :: (s' ++ ['%'])).length = (s' ++ ['%']).length + 1 from by simp]
  rw [percentScan_step_some ((s' ++ ['%']).length) c0 (s' ++ ['%']) _ st3]
  rw [List.drop_length, percentScan_nil]


/-! ### One canonical line through stage 1 -/

theorem digit_not_alpha (c : Char) (h : c.isDigit = true) : c.isAlpha = false := by
  simp only [Char.isDigit, Bool.and_eq_true, decide_eq_true_eq, Char.le_def,
    UInt32.le_def, BitVec.le_def] at h
  rw [Bool.eq_false_iff]
  intro hx
  simp only [Char.isAlpha, Char.isLower, Char.isUpper, Bool.or_eq_true, Bool.and_eq_true,
    decide_eq_true_eq, Char.le_def, UInt32.le_def, BitVec.le_def] at hx
  have e48 : ((48:UInt32).toBitVec).toNat = 48 := rfl
  have e57 : ((57:UInt32).toBitVec).toNat = 57 := rfl
  have e65 : ((65:UInt32).toBitVec).toNat = 65 := rfl
  have e90 : ((90:UInt32).toBitVec).toNat = 90 := rfl
  have e97 : ((97:UInt32).toBitVec).toNat = 97 := rfl
  have e122 : ((122:UInt32).toBitVec).toNat = 122 := rfl
  rw [e48, e57] at h
  rcases h with ⟨h1, h2⟩
  rcases hx with ⟨h3, h4⟩ | ⟨h3, h4⟩
  · rw [e65] at h3; rw [e90] at h4; omega
  · rw [e97] at h3; rw [e122] at h4; omega

theorem digit_ne_jibun (c : Char) (h : c.isDigit = true) : c ≠ '自' := by
  intro he
  subst he
  exact absurd h (by decide)

theorem digit_not_ws {c : Char} (h : c.isDigit = true) : isWs c = false := by
  rw [Bool.eq_false_iff]
  intro hws
  simp only [isWs, Bool.or_eq_true, beq_iff_eq] at hws
  rcases hws with ((((h1 | h1) | h1) | h1) | h1) | h1 <;> (subst h1; exact absurd h (by decide))

theorem dropWhile_none {p : Char → Bool} {l : Str}
    (h : ∀ c ∈ l, p c = false) : l.dropWhile p = l := by
  cases l with
  | nil => rfl
  | cons c cs =>
    have hc := h c (List.mem_cons_self c cs)
    simp [List.dropWhile_cons, hc]

theorem pyStrip_noWs {xs : Str} (h : ∀ c ∈ xs, isWs c = false) :
    pyStrip xs = xs := by
  rw [pyStrip, dropWhile_none h, dropWhile_none (by
    intro c hc
    exact h c (List.mem_reverse.mp hc)), List.reverse_reverse]

theorem strIn_cons_false {c : Char} {p x : Str} (h : c ∉ x) :
    strIn (c :: p) x = false := by
  rw [strIn, List.any_eq_false]
  intro t ht
  cases t with
  | nil => simp [List.isPrefixOf]
  | cons a as =>
    intro hpre
    have hs : (a :: as) <:+ x := (List.mem_tails _ _).mp ht
    have ha : a ∈ x := hs.subset (List.mem_cons_self a as)
    have hca : c = a := by
      simp only [List.isPrefixOf, Bool.and_eq_true, beq_iff_eq] at hpre
      exact hpre.1
    exact h (hca ▸ ha)

theorem containsLt10_clean {s : Str} (h : cleanNumeral s) :
    containsLt10 (s ++ ['%']) = false := by
  have hlt : '<' ∉ s ++ ['%'] := by
    intro hmem
    rcases List.mem_append.mp hmem with h1 | h1
    · rcases cleanNumeral_chars h '<' h1 with h2 | h2
      · cases h2
      · cases h2
    · rcases List.mem_cons.mp h1 with h2 | h2
      · cases h2
      · cases h2
  rw [containsLt10]
  rw [show strOf ("< 10") = '<' :: strOf (" 10") from rfl,
    show strOf ("<10") = '<' :: strOf ("10") from rfl,
    strIn_cons_false hlt, strIn_cons_false hlt]
  rfl

theorem keepDigitsDots_clean {s : Str} (h : cleanNumeral s) :
    keepDigitsDots (s ++ ['%']) = s := by
  rw [keepDigitsDots, List.filter_append]
  have h1 : s.filter isDigitDot = s := by
    rw [List.filter_eq_self]
    intro a ha
    rcases cleanNumeral_chars h a ha with h2 | h2
    · simp [isDigitDot, h2]
    · simp [isDigitDot, h2]
  rw [h1, show List.filter isDigitDot ['%'] = [] from rfl, List.append_nil]

theorem domainScan_step_some (n : Nat) (c : Char) (cs m : Str)
    (h : matchDomain (c :: cs) = some m) :
    domainScan (n+1) (c :: cs) =
      (m, (c :: cs).drop m.length) :: domainScan n ((c :: cs).drop m.length) := by
  simp only [domainScan, h]

theorem domainMatches_line {d rest : Str} (hd : matchDomain d = some d)
    (hrest : ∀ c ∈ rest, c.isAlpha = false ∧ c ≠ '自') :
    domainMatches (d ++ ':' :: rest) = [(d, ':' :: rest)] := by
  have hdne : d ≠ [] := by
    intro e
    rw [e] at hd
    cases hd
  obtain ⟨c0, dt, hd0⟩ : ∃ c0 dt, d = c0 :: dt := by
    cases he : d with
    | nil => exact absurd he hdne
    | cons x xs => exact ⟨x, xs, rfl⟩
  have hm := matchDomain_ext hd rest
  have hform : d ++ ':' :: rest = c0 :: (dt ++ ':' :: rest) := by
    rw [hd0, List.cons_append]
  rw [domainMatches]
  rw [hform] at hm ⊢
  rw [show (c0 :: (dt ++ ':' :: rest)).length = (dt ++ ':' :: rest).length + 1 from by
    simp]
  rw [domainScan_step_some ((dt ++ ':' :: rest).length) c0 (dt ++ ':' :: rest) d hm]
  have hdrop : (c0 :: (dt ++ ':' :: rest)).drop d.length = ':' :: rest := by
    rw [← hform]
    exact List.drop_left d (':' :: rest)
  rw [hdrop]
  rw [domainScan_junk _ _ (by
    intro a ha
    rcases List.mem_cons.mp ha with h1 | h1
    · subst h1
      exact ⟨by decide, by decide⟩
    · exact hrest a h1)]

theorem stage1Percents_canonical (pairs : List ShareRec) (r : ShareRec) (s : Str)
    (hraw : r.raw = s ++ ['%'])
    (hclean : cleanNumeral s)
    (hfloat : pyFloat s = some r.value)
    (hfresh : pairs.any (fun p => p.domain == r.domain) = false) :
    stage1Percents pairs r.domain [s ++ ['%']] = pairs ++ [r] := by
  have hchars : ∀ c ∈ s ++ ['%'], isWs c = false := by
    intro a ha
    rcases List.mem_append.mp ha with h1 | h1
    · rcases cleanNumeral_chars hclean a h1 with h2 | h2
      · exact digit_not_ws h2
      · subst h2
        decide
    · rcases List.mem_cons.mp h1 with h2 | h2
      · subst h2
        decide
      · cases h2
  have hstrip : pyStrip (s ++ ['%']) = s ++ ['%'] := pyStrip_noWs hchars
  have hlt : containsLt10 (s ++ ['%']) = false := containsLt10_clean hclean
  have hkeep : keepDigitsDots (s ++ ['%']) = s := keepDigitsDots_clean hclean
  have hie : s.isEmpty = false := List.isEmpty_eq_false.mpr (cleanNumeral_ne_nil hclean)
  simp only [stage1Percents, hstrip, hlt, hkeep, hie, hfloat, hfresh, Bool.false_eq_true,
    if_false]
  rw [← hraw]

theorem stage1Line_canonical (pairs : List ShareRec) (r : ShareRec) (s : Str)
    (hdm : matchDomain r.domain = some r.domain)
    (hraw : r.raw = s ++ ['%'])
    (hclean : cleanNumeral s)
    (hfloat : pyFloat s = some r.value)
    (hfresh : pairs.any (fun p => p.domain == r.domain) = false) :
    stage1Line pairs (renderRec r) = pairs ++ [r] := by
  have hrest : ∀ c ∈ ' ' :: (s ++ ['%']), c.isAlpha = false ∧ c ≠ '自' := by
    intro a ha
    rcases List.mem_cons.mp ha with h1 | h1
    · subst h1
      exact ⟨by decide, by decide⟩
    · rcases List.mem_append.mp h1 with h2 | h2
      · rcases cleanNumeral_chars hclean a h2 with h3 | h3
        · exact ⟨digit_not_alpha a h3, digit_ne_jibun a h3⟩
        · subst h3
          exact ⟨by decide, by decide⟩
      · rcases List.mem_cons.mp h2 with h3 | h3
        · subst h3
          exact ⟨by decide, by decide⟩
        · cases h3
  have hline : renderRec r = r.domain ++ ':' :: (' ' :: (s ++ ['%'])) := by
    rw [renderRec, hraw]
  rw [stage1Line, hline, domainMatches_line hdm hrest]
  rw [List.foldl_cons, List.foldl_nil]
  show stage1Percents pairs r.domain (percentMatches (':' :: ' ' :: (s ++ ['%']))) = _
  rw [percentMatches_rest hclean]
  exact stage1Percents_canonical pairs r s hraw hclean hfloat hfresh


/-! ### C9: re-parsing the canonical output -/

theorem matchDomain_chars {xs m : Str} (h : matchDomain xs = some m) :
    ∀ a ∈ m, isC3 a = true ∨ a = '自' ∨ a = '分' := by
  rcases matchDomain_cases h with h1 | ⟨_, h2⟩ | ⟨_, _, h3⟩
  · obtain ⟨c, cs, t, k, _, hc, _, _, hm⟩ := matchAlt1_some h1
    intro a ha
    rw [hm] at ha
    left
    rcases List.mem_cons.mp ha with rfl | ha1
    · exact isC3_of_alphanum hc
    rcases List.mem_append.mp ha1 with ha2 | ha2
    · rcases List.mem_append.mp ha2 with ha3 | ha3
      · exact isC3_of_isC2 (List.mem_takeWhile_imp ha3)
      rcases List.mem_cons.mp ha3 with rfl | ha4
      · decide
      · exact List.mem_takeWhile_imp (List.take_subset _ _ ha4)
    rcases List.mem_cons.mp ha2 with rfl | ha3
    · decide
    · exact isC3_of_isAlpha (List.mem_takeWhile_imp ha3)
  · obtain ⟨c, cs, t, _, hc, _, _, hm⟩ := matchAlt2_some h2
    intro a ha
    rw [hm] at ha
    left
    rcases List.mem_cons.mp ha with rfl | ha1
    · exact isC3_of_alphanum hc
    rcases List.mem_append.mp ha1 with ha2 | ha2
    · exact isC3_of_isC2 (List.mem_takeWhile_imp ha2)
    rcases List.mem_cons.mp ha2 with rfl | ha3
    · decide
    · exact isC3_of_isAlpha (List.mem_takeWhile_imp ha3)
  · obtain ⟨tl, _, hm⟩ := matchJibun_some h3
    intro a ha
    rw [hm] at ha
    rcases List.mem_cons.mp ha with rfl | ha1
    · exact Or.inr (Or.inl rfl)
    rcases List.mem_cons.mp ha1 with rfl | ha2
    · exact Or.inr (Or.inr rfl)
    · cases ha2

theorem foldl_stage1Line_canonical : ∀ (suf pre : List ShareRec),
    (∀ r ∈ suf, matchDomain r.domain = some r.domain) →
    (∀ r ∈ suf, ∃ s, r.raw = s ++ ['%'] ∧ pyFloat s = some r.value ∧ cleanNumeral s) →
    ((pre ++ suf).map ShareRec.domain).Nodup →
    (suf.map renderRec).foldl stage1Line pre = pre ++ suf := by
  intro suf
  induction suf with
  | nil =>
    intro pre _ _ _
    simp
  | cons r rest ih =>
    intro pre hdom hraw hnd
    obtain ⟨s, hs1, hs2, hs3⟩ := hraw r (List.mem_cons_self r rest)
    have hfresh : pre.any (fun p => p.domain == r.domain) = false := by
      rw [List.any_eq_false]
      intro p hp hbe
      have hpd : p.domain = r.domain := by
        simpa using hbe
      have hnd' := hnd
      rw [List.map_append, List.nodup_append] at hnd'
      rcases hnd' with ⟨_, _, hdisj⟩
      exact hdisj (List.mem_map_of_mem ShareRec.domain hp)
        (by
          rw [List.map_cons, hpd]
          exact List.mem_cons_self _ _)
    have hline := stage1Line_canonical pre r s (hdom r (List.mem_cons_self r rest))
      hs1 hs3 hs2 hfresh
    rw [List.map_cons, List.foldl_cons, hline]
    have ihh := ih (pre ++ [r]) (fun x hx => hdom x (List.mem_cons_of_mem r hx))
      (fun x hx => hraw x (List.mem_cons_of_mem r hx))
      (by simpa using hnd)
    rw [ihh]
    simp

/-- C9: a canonical extraction result — at most 7 records, pairwise-distinct
    domain-pattern identifiers, clean "NN%" raw texts parsing to the stored
    value, values at least 10, sorted descending — rendered as
    "domain: NN%" lines and fed back to extract_domains_and_shares yields
    the same records in the same order. -/
theorem extractShareTable_reparse_idempotent (rs : List ShareRec)
    (hlen : rs.length ≤ 7)
    (hnd : (rs.map ShareRec.domain).Nodup)
    (hdom : ∀ r ∈ rs, matchDomain r.domain = some r.domain)
    (hraw : ∀ r ∈ rs, ∃ s, r.raw = s ++ ['%'] ∧ pyFloat s = some r.value ∧ cleanNumeral s)
    (hval : ∀ r ∈ rs, 10 ≤ r.value)
    (hsort : rs.Pairwise (fun a b => b.value ≤ a.value)) :
    extract_domains_and_shares (renderLines rs) = rs := by
  cases rs with
  | nil => rfl
  | cons r0 rest =>
    have hnl : ∀ l ∈ (r0 :: rest).map renderRec, '\n' ∉ l := by
      intro l hl
      obtain ⟨r, hr, rfl⟩ := List.mem_map.mp hl
      intro hmem
      rw [renderRec] at hmem
      rcases List.mem_append.mp hmem with h1 | h1
      · rcases matchDomain_chars (hdom r hr) '\n' h1 with h2 | h2 | h2
        · exact absurd h2 (by decide)
        · exact absurd h2 (by decide)
        · exact absurd h2 (by decide)
      · rcases List.mem_cons.mp h1 with h2 | h2
        · exact absurd h2 (by decide)
        rcases List.mem_cons.mp h2 with h3 | h3
        · exact absurd h3 (by decide)
        obtain ⟨s, hs1, _, hs3⟩ := hraw r hr
        rw [hs1] at h3
        rcases List.mem_append.mp h3 with h4 | h4
        · rcases cleanNumeral_chars hs3 '\n' h4 with h5 | h5
          · exact absurd h5 (by decide)
          · exact absurd h5 (by decide)
        rcases List.mem_cons.mp h4 with h5 | h5
        · exact absurd h5 (by decide)
        · cases h5
    have hsplit : (renderLines (r0 :: rest)).splitOn '\n' = (r0 :: rest).map renderRec := by
      rw [renderLines]
      exact List.splitOn_intercalate _ '\n' hnl (by simp)
    have hstage1 : stage1 (renderLines (r0 :: rest)) = r0 :: rest := by
      rw [stage1, hsplit]
      have := foldl_stage1Line_canonical (r0 :: rest) [] hdom hraw (by simpa using hnd)
      simpa using this
    have hcascade : cascadePairs (renderLines (r0 :: rest)) = Except.ok (r0 :: rest) := by
      rw [cascadePairs]
      simp only [hstage1]
      simp [List.isEmpty_cons]
    have hbody : extractBody (renderLines (r0 :: rest)) =
        Except.ok (postFilter (r0 :: rest)) := by
      rw [extractBody, hcascade]
    have hfilter : (r0 :: rest).filter postFilterKeep = r0 :: rest := by
      rw [List.filter_eq_self]
      intro a ha
      obtain ⟨s, hs1, _, hs3⟩ := hraw a ha
      have h10 : decide (10 ≤ a.value) = true := decide_eq_true (hval a ha)
      have hC : containsLt10 a.raw = false := by
        rw [hs1]
        exact containsLt10_clean hs3
      simp [postFilterKeep, h10, hC]
    have hsorted : sortDescBy (fun a b => a.value < b.value) (r0 :: rest) = r0 :: rest :=
      sortDescBy_eq_self ShareRec.value (r0 :: rest) hsort
    have hpf : postFilter (r0 :: rest) = r0 :: rest := by
      rw [postFilter, hfilter, hsorted]
      exact List.take_of_length_le hlen
    rw [extract_domains_and_shares, hbody, hpf]

/-- Witness for C9 at a concrete two-record extraction result. -/
theorem extractShareTable_reparse_idempotent_witness :
    extract_domains_and_shares (renderLines
      [⟨strOf ("ex.com"), 42, strOf ("42%")⟩, ⟨strOf ("b.jp"), 10, strOf ("10%")⟩]) =
      [⟨strOf ("ex.com"), 42, strOf ("42%")⟩, ⟨strOf ("b.jp"), 10, strOf ("10%")⟩] :=
  extractShareTable_reparse_idempotent _ (by decide) (by decide) (by decide)
    (by
      intro r hr
      rcases List.mem_cons.mp hr with h | h
      · subst h
        exact ⟨strOf ("42"), rfl, by decide, Or.inl ⟨by decide, by decide⟩⟩
      rcases List.mem_cons.mp h with h2 | h2
      · subst h2
        exact ⟨strOf ("10"), rfl, by decide, Or.inl ⟨by decide, by decide⟩⟩
      · cases h2)
    (by decide) (by decide)

end Shinkan
